import Mathlib

/-!
Shallow embedding of the speaker-aware viral-clip pipeline
(src/core/viral_clipper_complete.py, src/web/utils/helpers.py,
src/web/services/job_service.py) and proofs about its
segment scheduler, crop geometry, face clustering, speaker estimation,
detection-pass accumulation, SRT caption writing/parsing, and the
caption re-burn file replacement sequence.

Python numeric conventions are embedded as follows: `float` values are
modelled by `ℚ` (every constant appearing in the modelled code paths is
exactly representable and every operation lands on exact values), Python
`int(...)` truncation toward zero is `pytrunc`, and Python `//` floor
division on integers is `pydiv`.
-/

namespace Clipper

/-- Python int(x): truncation of a real value toward zero. -/
def pytrunc (q : ℚ) : ℤ := if 0 ≤ q then ⌊q⌋ else ⌈q⌉

/-- Python floor division a // b on integers. -/
def pydiv (a b : ℤ) : ℤ := Int.fdiv a b

/-!  Segment Scheduler: calculate_segments
(viral_clipper_complete.py, create_viral_clip_with_speaker_switching). -/

/-- Embeds calculate_segments(total_duration, speakers_count). -/
def calculate_segments (total_duration : ℚ) (speakers_count : ℕ) : List ℚ :=
  if speakers_count = 1 then [total_duration]
  else
    let segment_duration : ℚ := if speakers_count = 2 then 6 else 4
    let full_segments : ℤ := pytrunc (total_duration / segment_duration)
    if full_segments = 0 then [total_duration]
    else
      let remaining_time : ℚ := total_duration - (full_segments : ℚ) * segment_duration
      if remaining_time ≤ 1 then
        List.replicate full_segments.toNat (total_duration / (full_segments : ℚ))
      else
        List.replicate full_segments.toNat segment_duration ++ [remaining_time]

/-- Embeds the per-segment speaker choice in
create_viral_clip_with_speaker_switching: segment i is rendered with
speakers[0] when there is a single speaker or i == 0 or i % 3 == 0,
otherwise with speakers[min((i // 3) % (len(speakers)-1) + 1, len(speakers)-1)].
Speaker ids equal their list index. -/
def segment_speaker (speakers_count : ℕ) (i : ℕ) : ℕ :=
  if speakers_count = 1 then 0
  else if i = 0 ∨ i % 3 = 0 then 0
  else min ((i / 3) % (speakers_count - 1) + 1) (speakers_count - 1)

/-- The speaker id assigned to each scheduled segment, in order. -/
def segment_speaker_ids (total_duration : ℚ) (speakers_count : ℕ) : List ℕ :=
  (List.range (calculate_segments total_duration speakers_count).length).map
    (segment_speaker speakers_count)

/-- Embeds the dynamic_cropping field of the clip data built in
generate_viral_clip: len(speakers) >= 2. -/
def dynamic_cropping (speakers_detected : ℕ) : Bool := decide (2 ≤ speakers_detected)

/-!  Crop Geometry: calculate_crop_zone. -/

/-- Embeds calculate_crop_zone(face_x, face_y, video_width, video_height,
position).  The Python constants int(1080*0.05), int(1080*0.6),
int(1080*0.4) evaluate (in IEEE double arithmetic) to exactly 54, 648 and
432, the same values the exact rational computation below produces. -/
def calculate_crop_zone (face_x face_y video_width video_height : ℤ)
    (position : String) : ℤ × ℤ × ℤ × ℤ :=
  let target_width : ℤ := 1080
  let target_height : ℤ := 1920
  let scale_factor : ℚ := (1920 : ℚ) / (video_height : ℚ)
  let scaled_width : ℤ := pytrunc ((video_width : ℚ) * scale_factor)
  let scaled_face_x : ℤ := pytrunc ((face_x : ℚ) * scale_factor)
  let crop_x : ℤ :=
    if scaled_width ≤ target_width then 0
    else if position = "center" then
      let ideal_crop_x :=
        scaled_face_x - pydiv target_width 2 - pytrunc ((1080 : ℚ) * (5 / 100))
      max 0 (min ideal_crop_x (scaled_width - target_width))
    else if position = "left" then
      let ideal_crop_x := scaled_face_x - pytrunc ((1080 : ℚ) * (6 / 10))
      max 0 (min ideal_crop_x (scaled_width - target_width))
    else if position = "right" then
      let ideal_crop_x := scaled_face_x - pytrunc ((1080 : ℚ) * (4 / 10))
      max 0 (min ideal_crop_x (scaled_width - target_width))
    else
      pydiv (scaled_width - target_width) 2
  (crop_x, 0, target_width, target_height)

/-!  Face detections and the Speaker Clusterer
(detect_speakers / cluster_faces_into_speakers / improved_face_clustering). -/

/-- A face detection dict as built by the detection passes: box, centre
and the precomputed area ratio (w*h divided by the frame area). -/
structure Face where
  x : ℤ
  y : ℤ
  w : ℤ
  h : ℤ
  center_x : ℤ
  center_y : ℤ
  face_area_ratio : ℚ
deriving DecidableEq, Repr

/-- face['face_size'] = w * h, computed in cluster_faces_into_speakers. -/
def face_size (f : Face) : ℤ := f.w * f.h

/-- face['normalized_x'] = center_x / width. -/
def normalized_x (width : ℤ) (f : Face) : ℚ := (f.center_x : ℚ) / (width : ℚ)

/-- face['normalized_y'] = center_y / height. -/
def normalized_y (height : ℤ) (f : Face) : ℚ := (f.center_y : ℚ) / (height : ℚ)

/-- The absorption test of improved_face_clustering: normalized centre
distance below 0.15 in both axes and size ratio min/max above 0.4. -/
def merge_condition (width height : ℤ) (f other : Face) : Bool :=
  decide (|normalized_x width f - normalized_x width other| < 15 / 100) &&
  decide (|normalized_y height f - normalized_y height other| < 15 / 100) &&
  decide ((2 : ℚ) / 5 <
    ((min (face_size f) (face_size other) : ℤ) : ℚ) /
      ((max (face_size f) (face_size other) : ℤ) : ℚ))

/-- Stable insertion (descending by face_size): an element is placed
before the first element whose size is not larger, so elements of equal
size keep their original relative order. -/
def sorted_insert (f : Face) : List Face → List Face
  | [] => [f]
  | g :: rest =>
      if face_size f < face_size g then g :: sorted_insert f rest
      else f :: g :: rest

/-- Python sorted(faces, key=face_size, reverse=True): the unique stable
descending-by-size reordering, realised as insertion sort. -/
def sort_by_size_desc : List Face → List Face
  | [] => []
  | f :: rest => sorted_insert f (sort_by_size_desc rest)

/-- The greedy scan of improved_face_clustering over the size-sorted
detection list: each unused face seeds a cluster and absorbs every
remaining unused face passing merge_condition.  The fuel argument (the
list length at the call site) only makes the recursion structural; one
unit is spent per seed, so it never runs out. -/
def cluster_scan (width height : ℤ) : ℕ → List Face → List (List Face)
  | 0, _ => []
  | _ + 1, [] => []
  | fuel + 1, f :: rest =>
      (f :: rest.filter (fun g => merge_condition width height f g)) ::
        cluster_scan width height fuel
          (rest.filter (fun g => !merge_condition width height f g))

/-- Embeds improved_face_clustering(faces, width, height): sort by face
size descending (stably, as Python sorted with reverse=True) and scan
greedily. -/
def improved_face_clustering (faces : List Face) (width height : ℤ) :
    List (List Face) :=
  cluster_scan width height faces.length (sort_by_size_desc faces)

/-- The cluster validity test of cluster_faces_into_speakers: at least
two detections, or a single detection with face_area_ratio above 0.1. -/
def valid_cluster : List Face → Bool
  | [] => false
  | [f] => decide ((1 : ℚ) / 10 < f.face_area_ratio)
  | _ :: _ :: _ => true

/-- The filtering step of cluster_faces_into_speakers, including the
lenient fallback: if no cluster is valid, all clusters are used. -/
def valid_clusters (clusters : List (List Face)) : List (List Face) :=
  let v := clusters.filter valid_cluster
  if v = [] then clusters else v

/-- The clusters cluster_faces_into_speakers turns into speakers:
valid_clusters[:3]. -/
def selected_clusters (clusters : List (List Face)) : List (List Face) :=
  (valid_clusters clusters).take 3

/-- total_weight of a cluster: the sum of its face sizes. -/
def cluster_weight (c : List Face) : ℤ := (c.map face_size).sum

/-- Five detections in a 1000 x 1000 frame: four well-separated speakers
(centres 20% of the frame apart) whose seed faces have strictly
decreasing sizes, the fourth speaker being backed by two nearby
detections whose combined weight beats the third speaker's single
detection. -/
def demo_faces : List Face :=
  [⟨100, 100, 100, 100, 150, 150, 1 / 5⟩,
   ⟨300, 300, 90, 90, 350, 350, 1 / 5⟩,
   ⟨500, 500, 80, 80, 550, 550, 1 / 5⟩,
   ⟨700, 700, 70, 70, 750, 750, 1 / 5⟩,
   ⟨705, 705, 69, 69, 755, 755, 1 / 5⟩]

/-!  Speaker-count estimation (estimate_speakers_from_segments). -/

/-- A transcript segment: seg['start'] and seg['end'] in seconds. -/
structure Seg where
  start : ℚ
  «end» : ℚ
deriving DecidableEq, Repr

/-- segment_lengths = [seg['end'] - seg['start'] for seg in segments]. -/
def segment_lengths (segments : List Seg) : List ℚ :=
  segments.map fun s => s.«end» - s.start

/-- avg_length = sum(segment_lengths) / len(segment_lengths) if
segment_lengths else 0. -/
def avg_segment_length (segments : List Seg) : ℚ :=
  if segment_lengths segments = [] then 0
  else (segment_lengths segments).sum / ((segment_lengths segments).length : ℚ)

/-- Embeds estimate_speakers_from_segments(segments): empty input gives
1; then the branches in source order: average below 5 s with more than 3
segments gives 2, else more than 10 segments averaging below 3 s gives
3, else 1. -/
def estimate_speakers_from_segments (segments : List Seg) : ℕ :=
  if segments = [] then 1
  else if avg_segment_length segments < 5 ∧ 3 < segments.length then 2
  else if 10 < segments.length ∧ avg_segment_length segments < 3 then 3
  else 1

/-!  Face Detector pass loop (detect_faces_at_frames). -/

/-- The per-frame pass loop of detect_faces_at_frames: before each
detection pass the loop breaks if the accumulated faces already number
at least estimated_speakers, otherwise it extends frame_faces with that
pass's detections.  The pass outputs (what each cascade would return on
the frame) are taken as inputs. -/
def accumulate_passes (estimated_speakers : ℕ) (acc : List Face) :
    List (List Face) → List Face
  | [] => acc
  | p :: ps =>
      if estimated_speakers ≤ acc.length then acc
      else accumulate_passes estimated_speakers (acc ++ p) ps

/-- frame_faces after the pass loop, starting from the empty list. -/
def run_detection_passes (estimated_speakers : ℕ)
    (pass_results : List (List Face)) : List Face :=
  accumulate_passes estimated_speakers [] pass_results

/-- A face detection value used for concrete instantiations. -/
def dummy_face : Face := ⟨0, 0, 1, 1, 0, 0, 1⟩

/-!  Caption re-burn file replacement: the tail of
regenerate_video_background_ass (src/web/services/job_service.py and the
identical copy in app.py).  Filesystem effects are embedded as explicit
state passing over an association list from paths to file contents. -/

/-- A filesystem: an association list from paths to file contents
(contents abstracted to numeric identifiers). -/
abbrev Fs := List (String × ℕ)

/-- The content of the file at a path, if one exists. -/
def fs_lookup (fs : Fs) (p : String) : Option ℕ :=
  (fs.find? fun e => e.1 == p).map fun e => e.2

/-- Creating or overwriting the file at a path. -/
def fs_set (fs : Fs) (p : String) (c : ℕ) : Fs :=
  (p, c) :: fs.filter fun e => !(e.1 == p)

/-- os.remove(p) (a no-op here when the file is absent, matching the
os.path.exists guard in the code). -/
def fs_remove (fs : Fs) (p : String) : Fs :=
  fs.filter fun e => !(e.1 == p)

/-- os.rename(src, dst). -/
def fs_rename (fs : Fs) (src dst : String) : Fs :=
  match fs_lookup fs src with
  | some c => fs_set (fs_remove fs src) dst c
  | none => fs

/-- Embeds the tail of regenerate_video_background_ass from the caption
burn-in call onward, as the sequence of filesystem states the code
passes through.  burn_captions_into_video_debug renders to
temp_ass_path: burn = some c models a successful render of content c,
burn = none a failed one (fail_out being whatever incomplete temp output
the failed render left, if any), after which the code raises before
touching the original.  On success the code executes
os.remove(original_video_path) and then
os.rename(temp_ass_path, original_video_path). -/
def regenerate_video_background_ass (fs : Fs)
    (original_video_path temp_ass_path : String)
    (burn : Option ℕ) (fail_out : Option ℕ) : List Fs :=
  match burn with
  | some c =>
      let fs1 := fs_set fs temp_ass_path c
      let fs2 := fs_remove fs1 original_video_path
      let fs3 := fs_rename fs2 temp_ass_path original_video_path
      [fs, fs1, fs2, fs3]
  | none =>
      let fs1 :=
        match fail_out with
        | some c => fs_set fs temp_ass_path c
        | none => fs
      [fs, fs1]

/-!  Python string primitives.  Python str values are embedded as
List Char; the functions below model the str methods used by the SRT
caption writer (transcribe_audio / format_timestamp) and parser
(extract_captions_from_srt_fixed). -/

/-- A Python string. -/
abbrev PyStr := List Char

/-- The whitespace characters stripped by Python str.strip(). -/
def pyisspace (c : Char) : Bool :=
  c == ' ' || c == '\t' || c == '\n' || c == '\x0b' || c == '\x0c' || c == '\r'

/-- Python str.lstrip(). -/
def pylstrip (s : PyStr) : PyStr := s.dropWhile pyisspace

/-- Python str.rstrip(). -/
def pyrstrip (s : PyStr) : PyStr := (s.reverse.dropWhile pyisspace).reverse

/-- Python str.strip(). -/
def pystrip (s : PyStr) : PyStr := pyrstrip (pylstrip s)

/-- Python str.split(sep) for a nonempty separator: cut at each leftmost
non-overlapping occurrence, keeping empty pieces. -/
def pysplit (sep : PyStr) : PyStr → List PyStr
  | [] => [[]]
  | c :: rest =>
      if h : sep ≠ [] ∧ sep.isPrefixOf (c :: rest) then
        [] :: pysplit sep ((c :: rest).drop sep.length)
      else
        (pysplit sep rest).modifyHead (c :: ·)
  termination_by s => s.length
  decreasing_by
    · simp only [List.length_drop, List.length_cons]
      have : 1 ≤ sep.length := List.length_pos.mpr h.1
      omega
    · simp

/-- Python str.replace(pat, rep) for a nonempty pattern, via the
identity s.replace(a, b) == b.join(s.split(a)). -/
def pyreplace (pat rep : PyStr) (s : PyStr) : PyStr :=
  List.intercalate rep (pysplit pat s)

/-- Python str.find(sub): the index of the leftmost occurrence, or
None where Python returns -1. -/
def pyfind (sub : PyStr) : PyStr → Option ℕ
  | [] => if sub = [] then some 0 else none
  | c :: rest =>
      if sub.isPrefixOf (c :: rest) then some 0
      else (pyfind sub rest).map (· + 1)

/-- Digit-run parsing inside Python int(): digits with single
underscores allowed between digits. -/
def py_digits_run (acc : ℕ) : PyStr → Option ℕ
  | [] => some acc
  | c :: rest =>
      if c.isDigit then py_digits_run (10 * acc + (c.toNat - 48)) rest
      else if c = '_' then
        match rest with
        | [] => none
        | d :: rest2 =>
            if d.isDigit then py_digits_run (10 * acc + (d.toNat - 48)) rest2
            else none
      else none

/-- The unsigned part of Python int(): a nonempty digit run. -/
def pynat (s : PyStr) : Option ℕ :=
  match s with
  | [] => none
  | c :: rest => if c.isDigit then py_digits_run (c.toNat - 48) rest else none

/-- Python int(str): surrounding whitespace stripped, an optional single
sign, then a nonempty digit run; None where Python raises ValueError. -/
def pyint (s : PyStr) : Option ℤ :=
  let t := pystrip s
  if t.head? = some '+' then (pynat t.tail).map fun n => (n : ℤ)
  else if t.head? = some '-' then (pynat t.tail).map fun n => -(n : ℤ)
  else (pynat t).map fun n => (n : ℤ)

/-!  SRT writing (transcribe_audio, format_timestamp). -/

/-- The character for a decimal digit value. -/
def digit_char (n : ℕ) : Char := Char.ofNat (48 + n)

/-- Decimal digits of a natural number, most significant first; the
fuel (n + 1 at the call site) bounds the digit count. -/
def nat_digits_aux : ℕ → ℕ → PyStr
  | 0, _ => []
  | fuel + 1, n =>
      if n < 10 then [digit_char n]
      else nat_digits_aux fuel (n / 10) ++ [digit_char (n % 10)]

/-- Python str(n) for a natural number. -/
def nat_digits (n : ℕ) : PyStr := nat_digits_aux (n + 1) n

/-- Python f-string zero padding to a field width. -/
def pad_zeros (width : ℕ) (s : PyStr) : PyStr :=
  List.replicate (width - s.length) '0' ++ s

/-- Python f"{n:0Wd}": zero-padded decimal, sign included in the
field width. -/
def fmt_int (width : ℕ) (n : ℤ) : PyStr :=
  if n < 0 then '-' :: pad_zeros (width - 1) (nat_digits n.natAbs)
  else pad_zeros width (nat_digits n.toNat)

/-- Python x % m for floats (sign of the divisor, floor-based). -/
def pymod (x m : ℚ) : ℚ := x - m * ⌊x / m⌋

/-- Embeds format_timestamp(seconds): HH:MM:SS,mmm.  hours comes from
int(seconds // 3600) (a floor, already integral), minutes from
int((seconds % 3600) // 60), the seconds field from int(seconds % 60)
and milliseconds from int((seconds % 60 - int(seconds % 60)) * 1000). -/
def format_timestamp (seconds : ℚ) : PyStr :=
  let hours : ℤ := ⌊seconds / 3600⌋
  let minutes : ℤ := ⌊pymod seconds 3600 / 60⌋
  let s2 : ℚ := pymod seconds 60
  let milliseconds : ℤ := pytrunc ((s2 - (pytrunc s2 : ℚ)) * 1000)
  fmt_int 2 hours ++ [':'] ++ fmt_int 2 minutes ++ [':'] ++
    fmt_int 2 (pytrunc s2) ++ [','] ++ fmt_int 3 milliseconds

/-- The SRT timing separator " --> ". -/
def arrow_sep : PyStr := [' ', '-', '-', '>', ' ']

/-- One SRT block as written by transcribe_audio for segment index i
(0-based): f"{i+1}\n{start} --> {end}\n{text.strip()}" without the
final blank line. -/
def srt_block (i : ℕ) (t s e : PyStr) : PyStr :=
  nat_digits (i + 1) ++ ['\n'] ++ s ++ arrow_sep ++ e ++ ['\n'] ++ pystrip t

/-- The file content written by the transcribe_audio loop from index i
on: each block followed by a blank line. -/
def write_srt_blocks : ℕ → List (PyStr × PyStr × PyStr) → PyStr
  | _, [] => []
  | i, (t, s, e) :: rest =>
      srt_block i t s e ++ ['\n', '\n'] ++ write_srt_blocks (i + 1) rest

/-- The SRT file content transcribe_audio writes for a cue list of
(text, formatted start, formatted end) triples. -/
def write_srt (cues : List (PyStr × PyStr × PyStr)) : PyStr :=
  write_srt_blocks 0 cues

/-- The blocks of write_srt without their trailing blank lines. -/
def srt_blocks_core : ℕ → List (PyStr × PyStr × PyStr) → List PyStr
  | _, [] => []
  | i, (t, s, e) :: rest => srt_block i t s e :: srt_blocks_core (i + 1) rest

/-!  SRT parsing (extract_captions_from_srt_fixed,
src/web/utils/helpers.py). -/

/-- A parsed caption entry as built by extract_captions_from_srt_fixed. -/
structure Caption where
  text : PyStr
  speaker : PyStr
  start_time : PyStr
  end_time : PyStr
  index : ℤ
deriving DecidableEq, Repr

/-- The speaker extraction inside the parser: default 'Speaker 1', or
text[1:text.find('] ')] with the prefix removed when the text starts
with '[' and contains '] '. -/
def speaker_split (text : PyStr) : PyStr × PyStr :=
  if ['['].isPrefixOf text then
    match pyfind (']' :: [' ']) text with
    | some k => ((text.take k).drop 1, text.drop (k + 2))
    | none => ((String.toList "Speaker 1"), text)
  else ((String.toList "Speaker 1"), text)

/-- One iteration of the parser loop on a block: at least 3 lines after
stripping/splitting, an int() first line, a timing line splitting into
exactly two pieces around ' --> ' (Python unpacks the split into two
names and the except clause turns any other arity into a skip), then
speaker extraction; None models a silently skipped block. -/
def parse_block (block : PyStr) : Option Caption :=
  match pysplit ['\n'] (pystrip block) with
  | l0 :: l1 :: l2 :: rest =>
      match pyint l0 with
      | none => none
      | some idx =>
          match pysplit arrow_sep l1 with
          | [start_str, end_str] =>
              let st := speaker_split (List.intercalate ['\n'] (l2 :: rest))
              some ⟨pystrip st.2, st.1, pystrip start_str, pystrip end_str, idx⟩
          | _ => none
  | _ => none

/-- Embeds extract_captions_from_srt_fixed(content): normalise literal
backslash-n sequences, strip, split on blank lines and parse each block,
silently skipping malformed ones. -/
def extract_captions_from_srt_fixed (content : PyStr) : List Caption :=
  let content2 := pyreplace ['\\', 'n'] ['\n'] content
  let blocks := pysplit ['\n', '\n'] (pystrip content2)
  blocks.filterMap parse_block

/-- No nonempty suffix of b, extended by one copy of sep, starts with
sep: splitting text containing b never cuts inside b or across the
boundary between b and a following separator. -/
def sep_safe (sep b : PyStr) : Prop :=
  ∀ s1 s2 : PyStr, b = s1 ++ s2 → s2 ≠ [] → sep.isPrefixOf (s2 ++ sep) = false

/-- No nonempty suffix of b starts with sep: b contains no occurrence
of sep. -/
def sep_free (sep b : PyStr) : Prop :=
  ∀ s1 s2 : PyStr, b = s1 ++ s2 → s2 ≠ [] → sep.isPrefixOf s2 = false

/-- A cue text that survives the caption round trip: already stripped,
nonempty, single-line, free of literal backslashes, and not carrying a
bracketed speaker prefix (which the parser would strip off). -/
def good_text (t : PyStr) : Prop :=
  pystrip t = t ∧ t ≠ [] ∧ '\n' ∉ t ∧ '\\' ∉ t ∧
    ¬ (List.isPrefixOf ['['] t = true ∧ (pyfind (']' :: [' ']) t).isSome = true)

/-- A timestamp string that survives the caption round trip: stripped,
and free of newlines, backslashes and spaces (format_timestamp output
is of this shape). -/
def good_ts (x : PyStr) : Prop :=
  pystrip x = x ∧ '\n' ∉ x ∧ '\\' ∉ x ∧ ' ' ∉ x

/-!  Theorems. -/

/-- Splitting at a character absent from beyond the head never cuts: a
list not containing the separator head is sep_safe. -/
theorem sep_safe_of_head_not_mem (c : Char) (cs b : PyStr) (h : c ∉ b) :
    sep_safe (c :: cs) b := by
  intro s1 s2 hb hne
  cases s2 with
  | nil => exact absurd rfl hne
  | cons d t =>
      have hd : d ∈ b := by
        rw [hb]
        exact List.mem_append_right s1 (List.mem_cons_self d t)
      have hcd : (c == d) = false := beq_eq_false_iff_ne.mpr fun he => h (he ▸ hd)
      simp [List.isPrefixOf, hcd]

/-- A list not containing the separator head is sep_free. -/
theorem sep_free_of_head_not_mem (c : Char) (cs b : PyStr) (h : c ∉ b) :
    sep_free (c :: cs) b := by
  intro s1 s2 hb hne
  cases s2 with
  | nil => exact absurd rfl hne
  | cons d t =>
      have hd : d ∈ b := by
        rw [hb]
        exact List.mem_append_right s1 (List.mem_cons_self d t)
      have hcd : (c == d) = false := beq_eq_false_iff_ne.mpr fun he => h (he ▸ hd)
      simp [List.isPrefixOf, hcd]

/-- Splitting step at a non-separator position. -/
theorem pysplit_cons_miss (sep : PyStr) (c : Char) (rest : PyStr)
    (h : sep.isPrefixOf (c :: rest) = false) :
    pysplit sep (c :: rest) = (pysplit sep rest).modifyHead (c :: ·) := by
  rw [pysplit, dif_neg]
  rintro ⟨-, hpre⟩
  rw [h] at hpre
  exact Bool.false_ne_true hpre

/-- Splitting step at a separator occurrence. -/
theorem pysplit_cons_hit (sep : PyStr) (c : Char) (rest : PyStr)
    (hsep : sep ≠ []) (h : sep.isPrefixOf (c :: rest) = true) :
    pysplit sep (c :: rest) = [] :: pysplit sep ((c :: rest).drop sep.length) := by
  rw [pysplit, dif_pos ⟨hsep, h⟩]

/-- A sep_free list is returned whole by pysplit. -/
theorem pysplit_eq_single (sep b : PyStr) (hsep : sep ≠ [])
    (hfree : sep_free sep b) : pysplit sep b = [b] := by
  induction b with
  | nil => rw [pysplit]
  | cons c rest ih =>
      rw [pysplit_cons_miss sep c rest
        (hfree [] (c :: rest) rfl (List.cons_ne_nil c rest)), ih]
      · rfl
      · intro s1 s2 hb hne
        exact hfree (c :: s1) s2 (by rw [hb]; rfl) hne

/-- A prefix of an append that fits inside the first part is a prefix
of the first part. -/
theorem prefix_of_append_of_length_le (p x y : PyStr) (h : p <+: x ++ y)
    (hl : p.length ≤ x.length) : p <+: x := by
  have h1 : p = (x ++ y).take p.length := List.prefix_iff_eq_take.mp h
  have h2 : (x ++ y).take p.length = x.take p.length := by
    rw [List.take_append_eq_append_take, Nat.sub_eq_zero_of_le hl, List.take_zero,
      List.append_nil]
  exact List.prefix_iff_eq_take.mpr (h1.trans h2)

/-- Scanning a sep_safe piece followed by a separator emits the piece
and continues after the separator. -/
theorem pysplit_append_sep (sep b r : PyStr) (hsep : sep ≠ [])
    (hsafe : sep_safe sep b) :
    pysplit sep (b ++ sep ++ r) = b :: pysplit sep r := by
  induction b with
  | nil =>
      simp only [List.nil_append]
      cases hs : sep with
      | nil => exact absurd hs hsep
      | cons c cs =>
          subst hs
          have hpre : List.isPrefixOf (c :: cs) (c :: (cs ++ r)) = true := by
            rw [ List.isPrefixOf_iff_prefix, show c :: (cs ++ r) = (c :: cs) ++ r from rfl]
            exact List.prefix_append _ _
          rw [show (c :: cs) ++ r = c :: (cs ++ r) from rfl,
            pysplit_cons_hit (c :: cs) c (cs ++ r) (List.cons_ne_nil c cs) hpre]
          congr 1
          rw [show c :: (cs ++ r) = (c :: cs) ++ r from rfl, List.drop_left]
  | cons c b' ih =>
      have h1 : List.isPrefixOf sep ((c :: b') ++ sep) = false :=
        hsafe [] (c :: b') rfl (List.cons_ne_nil c b')
      have hnp : List.isPrefixOf sep (c :: (b' ++ sep ++ r)) = false := by
        by_contra hcon
        rw [Bool.not_eq_false, List.isPrefixOf_iff_prefix] at hcon
        have hx : sep <+: ((c :: b') ++ sep) := by
          refine prefix_of_append_of_length_le sep ((c :: b') ++ sep) r ?_
            (by simp; omega)
          rw [show ((c :: b') ++ sep) ++ r = c :: (b' ++ sep ++ r) by simp]
          exact hcon
        rw [← List.isPrefixOf_iff_prefix, h1] at hx
        exact Bool.false_ne_true hx
      rw [show (c :: b') ++ sep ++ r = c :: (b' ++ sep ++ r) by simp,
        pysplit_cons_miss sep c _ hnp,
        ih fun s1 s2 hb hne => hsafe (c :: s1) s2 (by rw [hb]; rfl) hne]
      rfl

/-- Unfolding intercalate over a cons with a nonempty tail. -/
theorem intercalate_cons_of_ne_nil (sep b : PyStr) (bs : List PyStr)
    (h : bs ≠ []) :
    List.intercalate sep (b :: bs) = b ++ sep ++ List.intercalate sep bs := by
  cases bs with
  | nil => exact absurd rfl h
  | cons b2 bs2 =>
      simp [List.intercalate, List.append_assoc]

/-- A sep_safe list is also sep_free. -/
theorem sep_safe_imp_sep_free (sep b : PyStr) (h : sep_safe sep b) :
    sep_free sep b := by
  intro s1 s2 hb hne
  by_contra hcon
  rw [Bool.not_eq_false, List.isPrefixOf_iff_prefix] at hcon
  have h2 : sep <+: s2 ++ sep := hcon.trans (List.prefix_append s2 sep)
  rw [← List.isPrefixOf_iff_prefix, h s1 s2 hb hne] at h2
  exact Bool.false_ne_true h2

/-- Splitting is a left inverse of intercalation on sep_safe pieces. -/
theorem pysplit_intercalate (sep : PyStr) (blocks : List PyStr)
    (hsep : sep ≠ []) (hne : blocks ≠ [])
    (hsafe : ∀ b ∈ blocks, sep_safe sep b) :
    pysplit sep (List.intercalate sep blocks) = blocks := by
  induction blocks with
  | nil => exact absurd rfl hne
  | cons b bs ih =>
      cases bs with
      | nil =>
          rw [show List.intercalate sep [b] = b by simp [List.intercalate]]
          exact pysplit_eq_single sep b hsep
            (sep_safe_imp_sep_free sep b (hsafe b (List.mem_cons_self b [])))
      | cons b2 bs2 =>
          rw [intercalate_cons_of_ne_nil sep b (b2 :: bs2) (List.cons_ne_nil b2 bs2),
            pysplit_append_sep sep b _ hsep (hsafe b (List.mem_cons_self b _)),
            ih (List.cons_ne_nil b2 bs2)
              (fun x hx => hsafe x (List.mem_cons_of_mem b hx))]

/-- pylstrip is the identity when the head is not whitespace. -/
theorem pylstrip_no_op (s : PyStr)
    (h : ∀ c, s.head? = some c → pyisspace c = false) : pylstrip s = s := by
  cases s with
  | nil => rfl
  | cons c t =>
      rw [pylstrip, List.dropWhile_cons, if_neg]
      rw [h c rfl]
      exact Bool.false_ne_true

/-- pyrstrip is the identity when the last element is not whitespace. -/
theorem pyrstrip_no_op (s : PyStr)
    (h : ∀ c, s.getLast? = some c → pyisspace c = false) : pyrstrip s = s := by
  have h2 : s.reverse.dropWhile pyisspace = s.reverse :=
    pylstrip_no_op s.reverse fun c hc =>
      h c (by rw [← List.head?_reverse]; exact hc)
  rw [pyrstrip, h2, List.reverse_reverse]

/-- pystrip is the identity when neither end is whitespace. -/
theorem pystrip_no_op (s : PyStr)
    (hh : ∀ c, s.head? = some c → pyisspace c = false)
    (hl : ∀ c, s.getLast? = some c → pyisspace c = false) : pystrip s = s := by
  rw [pystrip, pylstrip_no_op s hh, pyrstrip_no_op s hl]

/-- pyrstrip removes exactly a trailing all-whitespace run when the
preceding element is not whitespace. -/
theorem pyrstrip_append_ws (x w : PyStr) (hw : ∀ c ∈ w, pyisspace c = true)
    (hx : ∀ c, x.getLast? = some c → pyisspace c = false) :
    pyrstrip (x ++ w) = x := by
  rw [pyrstrip, List.reverse_append, List.dropWhile_append]
  have hnil : w.reverse.dropWhile pyisspace = [] :=
    List.dropWhile_eq_nil_iff.mpr fun c hc => hw c (List.mem_reverse.mp hc)
  rw [hnil]
  simp only [List.isEmpty_nil, if_true]
  have h2 : x.reverse.dropWhile pyisspace = x.reverse :=
    pylstrip_no_op x.reverse fun c hc =>
      hx c (by rw [← List.head?_reverse]; exact hc)
  rw [h2, List.reverse_reverse]

/-- pystrip removes exactly a trailing all-whitespace run from a list
with non-whitespace ends. -/
theorem pystrip_append_ws (x w : PyStr) (hne : x ≠ [])
    (hw : ∀ c ∈ w, pyisspace c = true)
    (hh : ∀ c, x.head? = some c → pyisspace c = false)
    (hl : ∀ c, x.getLast? = some c → pyisspace c = false) :
    pystrip (x ++ w) = x := by
  rw [pystrip]
  have hlstrip : pylstrip (x ++ w) = x ++ w := by
    apply pylstrip_no_op
    intro c hc
    cases x with
    | nil => exact absurd rfl hne
    | cons d t =>
        rw [List.cons_append] at hc
        simp only [List.head?_cons, Option.some.injEq] at hc
        exact hc ▸ hh d rfl
  rw [hlstrip, pyrstrip_append_ws x w hw hl]

/-- A list in which pyfind locates no occurrence is sep_free. -/
theorem sep_free_of_pyfind_none (sep s : PyStr) (h : pyfind sep s = none) :
    sep_free sep s := by
  induction s with
  | nil =>
      intro s1 s2 hb hne
      rcases List.append_eq_nil.mp hb.symm with ⟨-, h2⟩
      exact absurd h2 hne
  | cons c t ih =>
      rw [pyfind] at h
      by_cases hp : sep.isPrefixOf (c :: t) = true
      · rw [if_pos hp] at h
        exact absurd h (by simp)
      · rw [if_neg hp, Option.map_eq_none'] at h
        intro s1 s2 hb hne
        cases s1 with
        | nil =>
            rw [List.nil_append] at hb
            rw [hb] at hp
            exact Bool.not_eq_true _ |>.mp hp
        | cons d t1 =>
            rw [List.cons_append] at hb
            injection hb with h1 h2
            exact ih h t1 s2 h2 hne

/-- A dropWhile that preserves length is the identity. -/
theorem dropWhile_eq_self_of_length (p : Char → Bool) (l : PyStr)
    (h : (l.dropWhile p).length = l.length) : l.dropWhile p = l :=
  (List.dropWhile_suffix p).eq_of_length h

/-- A strip-invariant list is both lstrip- and rstrip-invariant. -/
theorem pystrip_eq_self_parts (t : PyStr) (h : pystrip t = t) :
    pylstrip t = t ∧ pyrstrip t = t := by
  have hlen1 : (pylstrip t).length ≤ t.length :=
    (List.dropWhile_suffix pyisspace).length_le
  have hlen2 : (pyrstrip (pylstrip t)).length ≤ (pylstrip t).length := by
    rw [pyrstrip, List.length_reverse]
    calc ((pylstrip t).reverse.dropWhile pyisspace).length
        ≤ (pylstrip t).reverse.length :=
          (List.dropWhile_suffix pyisspace).length_le
      _ = (pylstrip t).length := List.length_reverse _
  have hlen : (pystrip t).length = t.length := by rw [h]
  rw [pystrip] at hlen
  have hl : pylstrip t = t := by
    apply dropWhile_eq_self_of_length
    simp only [pylstrip] at hlen1 hlen2 hlen
    omega
  refine ⟨hl, ?_⟩
  rw [pystrip, hl] at h
  exact h

/-- An lstrip-invariant list does not start with whitespace. -/
theorem pylstrip_self_head (t : PyStr) (h : pylstrip t = t) :
    ∀ c, t.head? = some c → pyisspace c = false := by
  intro c hc
  cases t with
  | nil => exact absurd hc (by simp)
  | cons d t2 =>
      simp only [List.head?_cons, Option.some.injEq] at hc
      subst hc
      by_contra hcon
      rw [Bool.not_eq_false] at hcon
      rw [pylstrip, List.dropWhile_cons, if_pos hcon] at h
      have := congrArg List.length h
      have h2 : (t2.dropWhile pyisspace).length ≤ t2.length :=
        (List.dropWhile_suffix pyisspace).length_le
      simp only [List.length_cons] at this
      omega

/-- An rstrip-invariant list does not end with whitespace. -/
theorem pyrstrip_self_last (t : PyStr) (h : pyrstrip t = t) :
    ∀ c, t.getLast? = some c → pyisspace c = false := by
  intro c hc
  have hrev : t.reverse.dropWhile pyisspace = t.reverse := by
    have := congrArg List.reverse h
    rw [pyrstrip, List.reverse_reverse] at this
    exact this
  refine pylstrip_self_head t.reverse hrev c ?_
  rw [List.head?_reverse]
  exact hc

/-- A strip-invariant list has non-whitespace head and last elements. -/
theorem pystrip_self_ends (t : PyStr) (h : pystrip t = t) :
    (∀ c, t.head? = some c → pyisspace c = false) ∧
    (∀ c, t.getLast? = some c → pyisspace c = false) :=
  ⟨pylstrip_self_head t (pystrip_eq_self_parts t h).1,
   pyrstrip_self_last t (pystrip_eq_self_parts t h).2⟩

/-- digit_char yields an ASCII digit for values below 10. -/
theorem digit_char_isDigit (n : ℕ) (h : n < 10) : (digit_char n).isDigit = true := by
  interval_cases n <;> rfl

/-- digit_char's code point for values below 10. -/
theorem digit_char_toNat (n : ℕ) (h : n < 10) : (digit_char n).toNat = 48 + n := by
  interval_cases n <;> rfl

/-- An ASCII digit is not Python whitespace. -/
theorem isdigit_not_space (c : Char) (h : c.isDigit = true) :
    pyisspace c = false := by
  by_contra hcon
  rw [Bool.not_eq_false, pyisspace] at hcon
  simp only [Bool.or_eq_true, beq_iff_eq] at hcon
  rcases hcon with ((((rfl | rfl) | rfl) | rfl) | rfl) | rfl <;>
    exact absurd h (by decide)

/-- An ASCII digit is none of the characters the parser treats
specially. -/
theorem isdigit_ne (c : Char) (h : c.isDigit = true) :
    c ≠ '+' ∧ c ≠ '-' ∧ c ≠ '\n' ∧ c ≠ '\\' ∧ c ≠ ' ' := by
  refine ⟨?_, ?_, ?_, ?_, ?_⟩ <;>
    (rintro rfl; exact absurd h (by decide))

/-- All characters of nat_digits_aux are digits. -/
theorem nat_digits_aux_digits (fuel : ℕ) :
    ∀ n, ∀ c ∈ nat_digits_aux fuel n, c.isDigit = true := by
  induction fuel with
  | zero =>
      intro n c hc
      simp [nat_digits_aux] at hc
  | succ fuel ih =>
      intro n c hc
      rw [nat_digits_aux] at hc
      by_cases h : n < 10
      · rw [if_pos h] at hc
        simp only [List.mem_singleton] at hc
        exact hc ▸ digit_char_isDigit n h
      · rw [if_neg h] at hc
        rcases List.mem_append.mp hc with h1 | h1
        · exact ih (n / 10) c h1
        · simp only [List.mem_singleton] at h1
          exact h1 ▸ digit_char_isDigit (n % 10) (Nat.mod_lt n (by norm_num))

/-- nat_digits_aux is nonempty given fuel. -/
theorem nat_digits_aux_ne_nil (fuel n : ℕ) (hf : fuel ≠ 0) :
    nat_digits_aux fuel n ≠ [] := by
  cases fuel with
  | zero => exact absurd rfl hf
  | succ fuel =>
      rw [nat_digits_aux]
      split
      · exact List.cons_ne_nil _ _
      · exact List.append_ne_nil_of_right_ne_nil _ (List.cons_ne_nil _ _)

/-- One digit step of the digit-run parser. -/
theorem py_digits_run_cons_digit (acc : ℕ) (c : Char) (rest : PyStr)
    (h : c.isDigit = true) :
    py_digits_run acc (c :: rest) =
      py_digits_run (10 * acc + (c.toNat - 48)) rest := by
  rw [py_digits_run.eq_def]
  simp only [h, if_true]

/-- The digit-run parser consumes a block of digits by folding them
into the accumulator. -/
theorem py_digits_run_append (acc : ℕ) (xs ys : PyStr)
    (h : ∀ c ∈ xs, c.isDigit = true) :
    py_digits_run acc (xs ++ ys) =
      py_digits_run (xs.foldl (fun a c => 10 * a + (c.toNat - 48)) acc) ys := by
  induction xs generalizing acc with
  | nil => rfl
  | cons c t ih =>
      rw [List.cons_append,
        py_digits_run_cons_digit acc c _ (h c (List.mem_cons_self c t)),
        List.foldl_cons]
      exact ih _ fun d hd => h d (List.mem_cons_of_mem c hd)

/-- The decimal value folded from the digits of nat_digits_aux. -/
theorem nat_digits_aux_foldl (fuel : ℕ) :
    ∀ n acc, n < 10 ^ fuel →
      (nat_digits_aux fuel n).foldl (fun a c => 10 * a + (c.toNat - 48)) acc =
        acc * 10 ^ (nat_digits_aux fuel n).length + n := by
  induction fuel with
  | zero =>
      intro n acc h
      rw [pow_zero] at h
      interval_cases n
      simp [nat_digits_aux]
  | succ fuel ih =>
      intro n acc h
      rw [nat_digits_aux]
      by_cases h10 : n < 10
      · rw [if_pos h10]
        simp only [List.foldl_cons, List.foldl_nil, List.length_singleton, pow_one,
          digit_char_toNat n h10]
        omega
      · rw [if_neg h10]
        have hdiv : n / 10 < 10 ^ fuel := by
          rw [Nat.div_lt_iff_lt_mul (by norm_num : 0 < 10)]
          rw [pow_succ] at h
          exact h
        rw [List.foldl_append, ih (n / 10) acc hdiv]
        simp only [List.foldl_cons, List.foldl_nil,
          digit_char_toNat (n % 10) (Nat.mod_lt n (by norm_num)), List.length_append,
          List.length_singleton]
        have hn : 10 * (n / 10) + n % 10 = n := by omega
        rw [pow_succ]
        calc 10 * (acc * 10 ^ (nat_digits_aux fuel (n / 10)).length + n / 10) +
              (48 + n % 10 - 48) =
            acc * (10 ^ (nat_digits_aux fuel (n / 10)).length * 10) +
              (10 * (n / 10) + n % 10) := by ring_nf; omega
          _ = acc * (10 ^ (nat_digits_aux fuel (n / 10)).length * 10) + n := by rw [hn]
          _ = acc * 10 ^ ((nat_digits_aux fuel (n / 10)).length + 1) + n := by
              rw [pow_succ]

/-- Parsing the rendered digits of a natural number returns it. -/
theorem pynat_nat_digits (n : ℕ) : pynat (nat_digits n) = some n := by
  have hlt : n < 10 ^ (n + 1) :=
    lt_of_lt_of_le (Nat.lt_pow_self (by norm_num) n)
      (Nat.pow_le_pow_right (by norm_num) (Nat.le_succ n))
  have hd := nat_digits_aux_digits (n + 1) n
  rw [nat_digits]
  cases he : nat_digits_aux (n + 1) n with
  | nil => exact absurd he (nat_digits_aux_ne_nil (n + 1) n (Nat.succ_ne_zero n))
  | cons c t =>
      rw [pynat, if_pos (hd c (he ▸ List.mem_cons_self c t))]
      have h2 := py_digits_run_append (c.toNat - 48) t []
        (fun d hdm => hd d (he ▸ List.mem_cons_of_mem c hdm))
      rw [List.append_nil] at h2
      rw [h2, py_digits_run]
      have h3 := nat_digits_aux_foldl (n + 1) n 0 hlt
      rw [he, List.foldl_cons] at h3
      simp only [Nat.mul_zero, Nat.zero_mul, Nat.zero_add] at h3
      rw [h3]

/-- Parsing the rendered digits of a natural number with int() returns
it. -/
theorem pyint_nat_digits (n : ℕ) : pyint (nat_digits n) = some (n : ℤ) := by
  have hd := nat_digits_aux_digits (n + 1) n
  have hs : pystrip (nat_digits n) = nat_digits n :=
    pystrip_no_op _
      (fun c hc => isdigit_not_space c (hd c (List.mem_of_mem_head? (by
        rw [Option.mem_def]; exact hc))))
      (fun c hc => isdigit_not_space c (hd c (List.mem_of_mem_getLast? (by
        rw [Option.mem_def]; exact hc))))
  have hpn := pynat_nat_digits n
  simp only [pyint, hs]
  cases he : nat_digits n with
  | nil =>
      exact absurd he (nat_digits_aux_ne_nil (n + 1) n (Nat.succ_ne_zero n))
  | cons c t =>
      have hcd : c.isDigit = true := hd c (by
        rw [show nat_digits_aux (n + 1) n = nat_digits n from rfl, he]
        exact List.mem_cons_self c t)
      rw [List.head?_cons,
        if_neg (by simp only [Option.some.injEq]; exact (isdigit_ne c hcd).1),
        if_neg (by simp only [Option.some.injEq]; exact (isdigit_ne c hcd).2.1),
        ← he, hpn]
      rfl

/-- Membership from head?. -/
theorem mem_of_head?_eq (l : PyStr) (c : Char) (h : l.head? = some c) : c ∈ l :=
  List.mem_of_mem_head? (by rw [Option.mem_def]; exact h)

/-- Membership from getLast?. -/
theorem mem_of_getLast?_eq (l : PyStr) (c : Char) (h : l.getLast? = some c) :
    c ∈ l :=
  List.mem_of_mem_getLast? (by rw [Option.mem_def]; exact h)

/-- sep_safe for the blank-line separator, composed across a single
newline: the left part has no newline, the right part is nonempty, does
not start with a newline, and is itself safe. -/
theorem sep_safe_nn_append (x y : PyStr) (hx : '\n' ∉ x) (hy : y ≠ [])
    (hyh : y.head? ≠ some '\n') (hsy : sep_safe ['\n', '\n'] y) :
    sep_safe ['\n', '\n'] (x ++ '\n' :: y) := by
  have hkey : ∀ z : PyStr, z = '\n' :: y →
      List.isPrefixOf ['\n', '\n'] (z ++ ['\n', '\n']) = false := by
    rintro z rfl
    cases hy2 : y with
    | nil => exact absurd hy2 hy
    | cons d y2 =>
        have hd : d ≠ '\n' := fun hc => hyh (by rw [hy2, hc]; rfl)
        have hbeq : ('\n' == d) = false := beq_eq_false_iff_ne.mpr fun hc => hd hc.symm
        simp [List.isPrefixOf, hbeq]
  intro s1 s2 hb hne
  rcases List.append_eq_append_iff.mp hb.symm with ⟨a2, hxa, hsplit⟩ | ⟨c2, hs1, hsplit⟩
  · cases a2 with
    | nil =>
        rw [List.nil_append] at hsplit
        exact hkey s2 hsplit
    | cons d a3 =>
        have hd : d ∈ x := by
          rw [hxa]
          exact List.mem_append_right s1 (List.mem_cons_self d a3)
        have hbeq : ('\n' == d) = false :=
          beq_eq_false_iff_ne.mpr fun hc => hx (hc ▸ hd)
        rw [hsplit, List.cons_append]
        simp [List.isPrefixOf, hbeq]
  · cases c2 with
    | nil =>
        rw [List.nil_append] at hsplit
        exact hkey s2 hsplit.symm
    | cons d c3 =>
        rw [List.cons_append] at hsplit
        injection hsplit with hd hy2
        exact hsy c3 s2 hy2 hne

/-- The decimal rendering of a natural number contains no newline,
backslash or space. -/
theorem nat_digits_no_special (n : ℕ) :
    '\n' ∉ nat_digits n ∧ '\\' ∉ nat_digits n ∧ ' ' ∉ nat_digits n ∧
      (∀ c ∈ nat_digits n, pyisspace c = false) := by
  have hd := nat_digits_aux_digits (n + 1) n
  refine ⟨fun hm => ?_, fun hm => ?_, fun hm => ?_, fun c hc => ?_⟩
  · exact absurd (hd _ hm) (by decide)
  · exact absurd (hd _ hm) (by decide)
  · exact absurd (hd _ hm) (by decide)
  · exact isdigit_not_space c (hd c hc)

/-- The timing line of an srt block contains no newline. -/
theorem timing_no_newline (s e : PyStr) (hs : good_ts s) (he : good_ts e) :
    '\n' ∉ s ++ arrow_sep ++ e := by
  intro hm
  rcases List.mem_append.mp hm with hm1 | hm1
  · rcases List.mem_append.mp hm1 with hm2 | hm2
    · exact hs.2.1 hm2
    · exact absurd hm2 (by decide)
  · exact he.2.1 hm1

/-- An srt block written as one newline-separated triple. -/
theorem srt_block_shape (i : ℕ) (t s e : PyStr) :
    srt_block i t s e =
      nat_digits (i + 1) ++ '\n' :: ((s ++ arrow_sep ++ e) ++ '\n' :: pystrip t) := by
  simp [srt_block, List.append_assoc]

/-- srt blocks are sep_safe for the blank-line separator. -/
theorem srt_block_sep_safe (i : ℕ) (t s e : PyStr)
    (ht : good_text t) (hs : good_ts s) (he : good_ts e) :
    sep_safe ['\n', '\n'] (srt_block i t s e) := by
  have h3 : '\n' ∉ pystrip t := by
    rw [ht.1]
    exact ht.2.2.1
  have htne : pystrip t ≠ [] := by
    rw [ht.1]
    exact ht.2.1
  rw [srt_block_shape]
  apply sep_safe_nn_append _ _ (nat_digits_no_special (i + 1)).1
  · exact List.append_ne_nil_of_right_ne_nil _ (List.cons_ne_nil _ _)
  · intro hc
    have hmem : '\n' ∈ (s ++ arrow_sep ++ e) ++ '\n' :: pystrip t :=
      mem_of_head?_eq _ _ hc
    have hne2 : s ++ arrow_sep ++ e ≠ [] :=
      List.append_ne_nil_of_left_ne_nil
        (List.append_ne_nil_of_right_ne_nil _ (by decide)) _
    rw [List.head?_append_of_ne_nil _ hne2] at hc
    exact timing_no_newline s e hs he (mem_of_head?_eq _ _ hc)
  · apply sep_safe_nn_append _ _ (timing_no_newline s e hs he) htne
    · intro hc
      exact h3 (mem_of_head?_eq _ _ hc)
    · exact sep_safe_of_head_not_mem '\n' ['\n'] _ h3

/-- Stripping an srt block is a no-op. -/
theorem srt_block_strip (i : ℕ) (t s e : PyStr) (ht : good_text t) :
    pystrip (srt_block i t s e) = srt_block i t s e := by
  have htne : pystrip t ≠ [] := by
    rw [ht.1]
    exact ht.2.1
  have hdig := nat_digits_no_special (i + 1)
  have hdne : nat_digits (i + 1) ≠ [] :=
    nat_digits_aux_ne_nil (i + 1 + 1) (i + 1) (Nat.succ_ne_zero _)
  apply pystrip_no_op
  · intro c hc
    rw [srt_block_shape, List.head?_append_of_ne_nil _ hdne] at hc
    exact hdig.2.2.2 c (mem_of_head?_eq _ _ hc)
  · intro c hc
    rw [srt_block, List.getLast?_append_of_ne_nil _ htne] at hc
    have hc2 : (pystrip t).getLast? = some c := hc
    exact (pystrip_self_ends t ht.1).2 c (by rw [← ht.1]; exact hc2)

/-- Splitting an srt block into lines. -/
theorem srt_block_lines (i : ℕ) (t s e : PyStr)
    (ht : good_text t) (hs : good_ts s) (he : good_ts e) :
    pysplit ['\n'] (srt_block i t s e) =
      [nat_digits (i + 1), s ++ arrow_sep ++ e, pystrip t] := by
  have h3 : '\n' ∉ pystrip t := by
    rw [ht.1]
    exact ht.2.2.1
  have hshape : srt_block i t s e =
      List.intercalate ['\n']
        [nat_digits (i + 1), s ++ arrow_sep ++ e, pystrip t] := by
    rw [srt_block_shape]
    simp [List.intercalate]
  rw [hshape]
  apply pysplit_intercalate _ _ (by decide) (by simp)
  intro b hb
  simp only [List.mem_cons, List.not_mem_nil, or_false] at hb
  rcases hb with rfl | rfl | rfl
  · exact sep_safe_of_head_not_mem '\n' [] _ (nat_digits_no_special (i + 1)).1
  · exact sep_safe_of_head_not_mem '\n' [] _ (timing_no_newline s e hs he)
  · exact sep_safe_of_head_not_mem '\n' [] _ h3

/-- Splitting the timing line around the arrow separator. -/
theorem timing_split (s e : PyStr) (hs : good_ts s) (he : good_ts e) :
    pysplit arrow_sep (s ++ arrow_sep ++ e) = [s, e] := by
  rw [pysplit_append_sep arrow_sep s e (by decide)
    (sep_safe_of_head_not_mem ' ' _ s hs.2.2.2)]
  rw [pysplit_eq_single arrow_sep e (by decide)
    (sep_free_of_head_not_mem ' ' _ e he.2.2.2)]

/-- The parser's speaker extraction leaves a good text untouched. -/
theorem speaker_split_good (t : PyStr)
    (h : ¬ (List.isPrefixOf ['['] t = true ∧
      (pyfind (']' :: [' ']) t).isSome = true)) :
    speaker_split t = (String.toList "Speaker 1", t) := by
  rw [speaker_split]
  by_cases hp : List.isPrefixOf ['['] t = true
  · have hfind : pyfind (']' :: [' ']) t = none := by
      cases hfo : pyfind (']' :: [' ']) t with
      | none => rfl
      | some k => exact absurd ⟨hp, by rw [hfo]; rfl⟩ h
    rw [if_pos hp, hfind]
  · rw [if_neg hp]

/-- Parsing one written srt block recovers the cue. -/
theorem parse_block_srt_block (i : ℕ) (t s e : PyStr)
    (ht : good_text t) (hs : good_ts s) (he : good_ts e) :
    parse_block (srt_block i t s e) =
      some ⟨t, String.toList "Speaker 1", s, e, ((i : ℤ) + 1)⟩ := by
  rw [parse_block, srt_block_strip i t s e ht, srt_block_lines i t s e ht hs he]
  have hint : pyint (nat_digits (i + 1)) = some ((i : ℤ) + 1) := by
    rw [pyint_nat_digits (i + 1)]
    norm_num
  dsimp only
  rw [hint]
  dsimp only
  rw [timing_split s e hs he]
  dsimp only
  rw [show List.intercalate ['\n'] [pystrip t] = pystrip t by simp [List.intercalate]]
  rw [ht.1, speaker_split_good t ht.2.2.2.2]
  dsimp only
  rw [ht.1, hs.1, he.1]

/-- An srt block is nonempty. -/
theorem srt_block_ne_nil (i : ℕ) (t s e : PyStr) : srt_block i t s e ≠ [] := by
  rw [srt_block_shape]
  exact List.append_ne_nil_of_right_ne_nil _ (List.cons_ne_nil _ _)

/-- The head of an srt block is a digit, hence not whitespace. -/
theorem srt_block_head (i : ℕ) (t s e : PyStr) :
    ∀ c, (srt_block i t s e).head? = some c → pyisspace c = false := by
  intro c hc
  have hdne : nat_digits (i + 1) ≠ [] :=
    nat_digits_aux_ne_nil (i + 1 + 1) (i + 1) (Nat.succ_ne_zero _)
  rw [srt_block_shape, List.head?_append_of_ne_nil _ hdne] at hc
  exact (nat_digits_no_special (i + 1)).2.2.2 c (mem_of_head?_eq _ _ hc)

/-- The last element of an srt block is the cue text's last character,
which is not whitespace. -/
theorem srt_block_last (i : ℕ) (t s e : PyStr) (ht : good_text t) :
    ∀ c, (srt_block i t s e).getLast? = some c → pyisspace c = false := by
  intro c hc
  have htne : pystrip t ≠ [] := by
    rw [ht.1]
    exact ht.2.1
  rw [srt_block, List.getLast?_append_of_ne_nil _ htne] at hc
  exact (pystrip_self_ends t ht.1).2 c (by rw [← ht.1]; exact hc)

/-- Character membership in an srt block decomposes into its parts. -/
theorem mem_srt_block (c : Char) (i : ℕ) (t s e : PyStr)
    (hc : c ∈ srt_block i t s e) :
    c ∈ nat_digits (i + 1) ∨ c = '\n' ∨ c ∈ s ∨ c ∈ arrow_sep ∨ c ∈ e ∨
      c ∈ pystrip t := by
  rw [srt_block] at hc
  simp only [List.mem_append, List.mem_singleton] at hc
  tauto

/-- An srt block contains no backslash. -/
theorem srt_block_no_bs (i : ℕ) (t s e : PyStr)
    (ht : good_text t) (hs : good_ts s) (he : good_ts e) :
    '\\' ∉ srt_block i t s e := by
  intro hm
  rcases mem_srt_block '\\' i t s e hm with h | h | h | h | h | h
  · exact absurd ((nat_digits_no_special (i + 1)).2.1) (fun hn => hn h)
  · exact absurd h (by decide)
  · exact hs.2.2.1 h
  · exact absurd h (by decide)
  · exact he.2.2.1 h
  · rw [ht.1] at h
    exact ht.2.2.2.1 h

/-- The written srt content contains no backslash. -/
theorem write_srt_blocks_no_bs (i : ℕ) (cues : List (PyStr × PyStr × PyStr))
    (h : ∀ x ∈ cues, good_text x.1 ∧ good_ts x.2.1 ∧ good_ts x.2.2) :
    '\\' ∉ write_srt_blocks i cues := by
  induction cues generalizing i with
  | nil =>
      rw [write_srt_blocks]
      exact List.not_mem_nil '\\'
  | cons x rest ih =>
      obtain ⟨t, s, e⟩ := x
      have hx := h (t, s, e) (List.mem_cons_self _ _)
      rw [write_srt_blocks]
      intro hm
      rcases List.mem_append.mp hm with hm1 | hm1
      · rcases List.mem_append.mp hm1 with hm2 | hm2
        · exact srt_block_no_bs i t s e hx.1 hx.2.1 hx.2.2 hm2
        · exact absurd hm2 (by decide)
      · exact ih (i + 1) (fun y hy => h y (List.mem_cons_of_mem _ hy)) hm1

/-- Replacing literal backslash-n in backslash-free content is the
identity. -/
theorem pyreplace_bsn_id (content : PyStr) (h : '\\' ∉ content) :
    pyreplace ['\\', 'n'] ['\n'] content = content := by
  rw [pyreplace, pysplit_eq_single _ _ (by decide)
    (sep_free_of_head_not_mem '\\' ['n'] content h)]
  simp [List.intercalate]

/-- The written content is the blank-line intercalation of the blocks
followed by one final blank line. -/
theorem write_srt_blocks_eq (i : ℕ) (cues : List (PyStr × PyStr × PyStr))
    (h : cues ≠ []) :
    write_srt_blocks i cues =
      List.intercalate ['\n', '\n'] (srt_blocks_core i cues) ++ ['\n', '\n'] := by
  induction cues generalizing i with
  | nil => exact absurd rfl h
  | cons x rest ih =>
      obtain ⟨t, s, e⟩ := x
      rw [write_srt_blocks, srt_blocks_core]
      cases rest with
      | nil =>
          rw [write_srt_blocks, srt_blocks_core]
          simp [List.intercalate]
      | cons y rest2 =>
          rw [ih (i + 1) (List.cons_ne_nil y rest2)]
          obtain ⟨t2, s2, e2⟩ := y
          rw [intercalate_cons_of_ne_nil _ _ _ (by
            rw [srt_blocks_core]
            exact List.cons_ne_nil _ _)]
          simp [List.append_assoc]

/-- srt_blocks_core of a nonempty cue list is nonempty. -/
theorem srt_blocks_core_ne_nil (i : ℕ) (x : PyStr × PyStr × PyStr)
    (rest : List (PyStr × PyStr × PyStr)) :
    srt_blocks_core i (x :: rest) ≠ [] := by
  obtain ⟨t, s, e⟩ := x
  rw [srt_blocks_core]
  exact List.cons_ne_nil _ _

/-- The intercalation of nonempty blocks is nonempty. -/
theorem intercalate_nn_ne_nil (b : PyStr) (bs : List PyStr) (hb : b ≠ []) :
    List.intercalate ['\n', '\n'] (b :: bs) ≠ [] := by
  cases bs with
  | nil =>
      rw [show List.intercalate ['\n', '\n'] [b] = b by simp [List.intercalate]]
      exact hb
  | cons b2 bs2 =>
      rw [intercalate_cons_of_ne_nil _ _ _ (List.cons_ne_nil b2 bs2)]
      exact List.append_ne_nil_of_left_ne_nil
        (List.append_ne_nil_of_left_ne_nil hb _) _

/-- The head of the intercalated blocks of a nonempty cue list is not
whitespace. -/
theorem intercalate_blocks_head (i : ℕ) (x : PyStr × PyStr × PyStr)
    (rest : List (PyStr × PyStr × PyStr)) :
    ∀ c, (List.intercalate ['\n', '\n'] (srt_blocks_core i (x :: rest))).head? =
        some c → pyisspace c = false := by
  obtain ⟨t, s, e⟩ := x
  intro c hc
  rw [srt_blocks_core] at hc
  cases rest with
  | nil =>
      rw [show srt_blocks_core (i + 1) [] = [] from rfl,
        show List.intercalate ['\n', '\n'] [srt_block i t s e] = srt_block i t s e
          by simp [List.intercalate]] at hc
      exact srt_block_head i t s e c hc
  | cons y rest2 =>
      rw [intercalate_cons_of_ne_nil _ _ _ (srt_blocks_core_ne_nil (i + 1) y rest2),
        List.append_assoc,
        List.head?_append_of_ne_nil _ (srt_block_ne_nil i t s e)] at hc
      exact srt_block_head i t s e c hc

/-- The last element of the intercalated blocks of a nonempty cue list
is not whitespace. -/
theorem intercalate_blocks_last (i : ℕ) (x : PyStr × PyStr × PyStr)
    (rest : List (PyStr × PyStr × PyStr))
    (h : ∀ y ∈ x :: rest, good_text y.1) :
    ∀ c, (List.intercalate ['\n', '\n'] (srt_blocks_core i (x :: rest))).getLast? =
        some c → pyisspace c = false := by
  induction rest generalizing i x with
  | nil =>
      obtain ⟨t, s, e⟩ := x
      intro c hc
      rw [srt_blocks_core,
        show srt_blocks_core (i + 1) [] = [] from rfl,
        show List.intercalate ['\n', '\n'] [srt_block i t s e] = srt_block i t s e
          by simp [List.intercalate]] at hc
      exact srt_block_last i t s e (h (t, s, e) (List.mem_cons_self _ _)) c hc
  | cons y rest2 ih =>
      obtain ⟨t, s, e⟩ := x
      intro c hc
      rw [srt_blocks_core] at hc
      rw [intercalate_cons_of_ne_nil _ _ _ (srt_blocks_core_ne_nil (i + 1) y rest2)] at hc
      obtain ⟨t2, s2, e2⟩ := y
      have hne2 : List.intercalate ['\n', '\n'] (srt_blocks_core (i + 1) ((t2, s2, e2) :: rest2)) ≠ [] := by
        rw [srt_blocks_core]
        exact intercalate_nn_ne_nil _ _ (srt_block_ne_nil (i + 1) t2 s2 e2)
      rw [List.append_assoc,
        List.getLast?_append_of_ne_nil _
          (List.append_ne_nil_of_left_ne_nil (by decide) _),
        List.getLast?_append_of_ne_nil _ hne2] at hc
      exact ih (i + 1) (t2, s2, e2) (fun z hz => h z (List.mem_cons_of_mem _ hz)) c hc

/-- Parsing the written blocks recovers the cue triples in order. -/
theorem blocks_parse_map (i : ℕ) (cues : List (PyStr × PyStr × PyStr))
    (h : ∀ x ∈ cues, good_text x.1 ∧ good_ts x.2.1 ∧ good_ts x.2.2) :
    ((srt_blocks_core i cues).filterMap parse_block).map
      (fun c => (c.text, c.start_time, c.end_time)) = cues := by
  induction cues generalizing i with
  | nil => rfl
  | cons x rest ih =>
      obtain ⟨t, s, e⟩ := x
      have hx := h (t, s, e) (List.mem_cons_self _ _)
      rw [srt_blocks_core, List.filterMap_cons,
        parse_block_srt_block i t s e hx.1 hx.2.1 hx.2.2]
      rw [List.map_cons, ih (i + 1) (fun y hy => h y (List.mem_cons_of_mem _ hy))]

/-- All written blocks are sep_safe for the blank-line separator. -/
theorem srt_blocks_core_safe (i : ℕ) (cues : List (PyStr × PyStr × PyStr))
    (h : ∀ x ∈ cues, good_text x.1 ∧ good_ts x.2.1 ∧ good_ts x.2.2) :
    ∀ b ∈ srt_blocks_core i cues, sep_safe ['\n', '\n'] b := by
  induction cues generalizing i with
  | nil =>
      intro b hb
      rw [show srt_blocks_core i [] = [] from rfl] at hb
      exact absurd hb (List.not_mem_nil b)
  | cons x rest ih =>
      obtain ⟨t, s, e⟩ := x
      intro b hb
      rw [srt_blocks_core] at hb
      rcases List.mem_cons.mp hb with rfl | hb2
      · have hx := h (t, s, e) (List.mem_cons_self _ _)
        exact srt_block_sep_safe i t s e hx.1 hx.2.1 hx.2.2
      · exact ih (i + 1) (fun y hy => h y (List.mem_cons_of_mem _ hy)) b hb2

/-- Writing a good cue list to SRT and re-parsing returns exactly the
same (text, start, end) triples in the same order. -/
theorem extract_write_srt (cues : List (PyStr × PyStr × PyStr))
    (h : ∀ x ∈ cues, good_text x.1 ∧ good_ts x.2.1 ∧ good_ts x.2.2) :
    (extract_captions_from_srt_fixed (write_srt cues)).map
      (fun c => (c.text, c.start_time, c.end_time)) = cues := by
  cases cues with
  | nil =>
      rw [write_srt, write_srt_blocks, extract_captions_from_srt_fixed]
      simp [pyreplace, pysplit, pystrip, pylstrip, pyrstrip, List.intercalate,
        parse_block]
  | cons x rest =>
      have hx := h x (List.mem_cons_self x rest)
      have hcore : srt_blocks_core 0 (x :: rest) =
          srt_block 0 x.1 x.2.1 x.2.2 :: srt_blocks_core 1 rest := by
        obtain ⟨t, s, e⟩ := x
        rfl
      have hbs : '\\' ∉ write_srt (x :: rest) := write_srt_blocks_no_bs 0 _ h
      rw [extract_captions_from_srt_fixed, pyreplace_bsn_id _ hbs, write_srt,
        write_srt_blocks_eq 0 (x :: rest) (List.cons_ne_nil x rest)]
      rw [pystrip_append_ws _ _ ?hne (by decide) ?hh ?hl]
      case hne =>
        rw [hcore]
        exact intercalate_nn_ne_nil _ _ (srt_block_ne_nil 0 x.1 x.2.1 x.2.2)
      case hh => exact intercalate_blocks_head 0 x rest
      case hl => exact intercalate_blocks_last 0 x rest fun y hy => (h y hy).1
      rw [pysplit_intercalate _ _ (by decide)
        (by rw [hcore]; exact List.cons_ne_nil _ _)
        (srt_blocks_core_safe 0 (x :: rest) h)]
      exact blocks_parse_map 0 (x :: rest) h

/-!  format_timestamp output shape. -/

/-- Characters of fmt_int: a minus sign, a padding zero, or a digit. -/
theorem fmt_int_chars (w : ℕ) (n : ℤ) :
    ∀ c ∈ fmt_int w n, c = '-' ∨ c = '0' ∨ c.isDigit = true := by
  intro c hc
  rw [fmt_int] at hc
  split at hc
  · rcases List.mem_cons.mp hc with rfl | hc2
    · exact Or.inl rfl
    · rw [pad_zeros] at hc2
      rcases List.mem_append.mp hc2 with hc3 | hc3
      · exact Or.inr (Or.inl (List.eq_of_mem_replicate hc3))
      · exact Or.inr (Or.inr (nat_digits_aux_digits _ _ c hc3))
  · rw [pad_zeros] at hc
    rcases List.mem_append.mp hc with hc3 | hc3
    · exact Or.inr (Or.inl (List.eq_of_mem_replicate hc3))
    · exact Or.inr (Or.inr (nat_digits_aux_digits _ _ c hc3))

/-- Characters of format_timestamp: minus, zero, digit, colon or
comma. -/
theorem format_timestamp_chars (q : ℚ) :
    ∀ c ∈ format_timestamp q,
      c = '-' ∨ c = '0' ∨ c.isDigit = true ∨ c = ':' ∨ c = ',' := by
  intro c hc
  simp only [format_timestamp, List.append_assoc, List.mem_append,
    List.mem_singleton] at hc
  rcases hc with hc | hc | hc | hc | hc | hc | hc
  · rcases fmt_int_chars 2 _ c hc with h1 | h1 | h1
    · exact Or.inl h1
    · exact Or.inr (Or.inl h1)
    · exact Or.inr (Or.inr (Or.inl h1))
  · exact Or.inr (Or.inr (Or.inr (Or.inl hc)))
  · rcases fmt_int_chars 2 _ c hc with h1 | h1 | h1
    · exact Or.inl h1
    · exact Or.inr (Or.inl h1)
    · exact Or.inr (Or.inr (Or.inl h1))
  · exact Or.inr (Or.inr (Or.inr (Or.inl hc)))
  · rcases fmt_int_chars 2 _ c hc with h1 | h1 | h1
    · exact Or.inl h1
    · exact Or.inr (Or.inl h1)
    · exact Or.inr (Or.inr (Or.inl h1))
  · exact Or.inr (Or.inr (Or.inr (Or.inr hc)))
  · rcases fmt_int_chars 3 _ c hc with h1 | h1 | h1
    · exact Or.inl h1
    · exact Or.inr (Or.inl h1)
    · exact Or.inr (Or.inr (Or.inl h1))

/-- format_timestamp output is a good timestamp string. -/
theorem good_ts_format_timestamp (q : ℚ) : good_ts (format_timestamp q) := by
  have hclass := format_timestamp_chars q
  have hspec : ∀ c ∈ format_timestamp q,
      pyisspace c = false ∧ c ≠ '\n' ∧ c ≠ '\\' ∧ c ≠ ' ' := by
    intro c hc
    rcases hclass c hc with rfl | rfl | h1 | rfl | rfl
    · exact ⟨by decide, by decide, by decide, by decide⟩
    · exact ⟨by decide, by decide, by decide, by decide⟩
    · exact ⟨isdigit_not_space c h1, (isdigit_ne c h1).2.2.1,
        (isdigit_ne c h1).2.2.2.1, (isdigit_ne c h1).2.2.2.2⟩
    · exact ⟨by decide, by decide, by decide, by decide⟩
    · exact ⟨by decide, by decide, by decide, by decide⟩
  refine ⟨?_, ?_, ?_, ?_⟩
  · exact pystrip_no_op _
      (fun c hc => (hspec c (mem_of_head?_eq _ _ hc)).1)
      (fun c hc => (hspec c (mem_of_getLast?_eq _ _ hc)).1)
  · exact fun hm => (hspec '\n' hm).2.1 rfl
  · exact fun hm => (hspec '\\' hm).2.2.1 rfl
  · exact fun hm => (hspec ' ' hm).2.2.2 rfl

/-- The absorption test holds exactly when both normalized centre
distances are below 0.15 and the size ratio is above 0.4. -/
theorem merge_condition_eq_true (width height : ℤ) (f g : Face) :
    merge_condition width height f g = true ↔
      (|normalized_x width f - normalized_x width g| < 15 / 100 ∧
       |normalized_y height f - normalized_y height g| < 15 / 100 ∧
       (2 : ℚ) / 5 <
         ((min (face_size f) (face_size g) : ℤ) : ℚ) /
           ((max (face_size f) (face_size g) : ℤ) : ℚ)) := by
  simp [merge_condition, Bool.and_eq_true, decide_eq_true_eq, and_assoc]

/-- The absorption test is symmetric in the two detections. -/
theorem merge_condition_symm (width height : ℤ) (f g : Face) :
    merge_condition width height f g = merge_condition width height g f := by
  simp only [merge_condition]
  rw [abs_sub_comm (normalized_x width f), abs_sub_comm (normalized_y height f),
    min_comm (face_size f), max_comm (face_size f)]

/-- Truncation toward zero of a nonnegative rational is its floor. -/
theorem pytrunc_eq_floor (q : ℚ) (h : 0 ≤ q) : pytrunc q = ⌊q⌋ := if_pos h

/-- C1: for every total clip duration D > 0 the Segment Scheduler returns:
with one speaker, a single segment of length D; with K ≥ 2 speakers (base
6 for K = 2, base 4 for K ≥ 3 and full = ⌊D / base⌋): a single segment of
length D when full = 0, full even segments of length D / full when the
remainder D - full*base is at most 1, and otherwise full segments of the
base length followed by the remainder.  D = 25 with 2 speakers gives four
segments of 6.25 s, D = 22 with 3 speakers gives [4,4,4,4,4,2], and the
scheduled durations always sum to D. -/
theorem calculate_segments_spec (D : ℚ) (K : ℕ) (hD : 0 < D) :
    (K = 1 → calculate_segments D K = [D]) ∧
    (2 ≤ K →
      calculate_segments D K =
        (let b : ℚ := if K = 2 then 6 else 4
         let full : ℤ := ⌊D / b⌋
         if full = 0 then [D]
         else if D - (full : ℚ) * b ≤ 1 then List.replicate full.toNat (D / (full : ℚ))
         else List.replicate full.toNat b ++ [D - (full : ℚ) * b])) ∧
    calculate_segments 25 2 = [25 / 4, 25 / 4, 25 / 4, 25 / 4] ∧
    calculate_segments 22 3 = [4, 4, 4, 4, 4, 2] ∧
    (calculate_segments D K).sum = D := by
  refine ⟨?_, ?_, ?_, ?_, ?_⟩
  · intro h1
    simp [calculate_segments, h1]
  · intro hK
    have h1 : K ≠ 1 := by omega
    have hb : (0 : ℚ) < if K = 2 then (6 : ℚ) else 4 := by split <;> norm_num
    have htr : pytrunc (D / if K = 2 then (6 : ℚ) else 4) =
        ⌊D / if K = 2 then (6 : ℚ) else 4⌋ :=
      pytrunc_eq_floor _ (div_nonneg hD.le hb.le)
    simp only [calculate_segments, if_neg h1, htr]
  · norm_num [calculate_segments, pytrunc]
    rfl
  · norm_num [calculate_segments, pytrunc]
    rfl
  · by_cases h1 : K = 1
    · simp [calculate_segments, h1]
    · simp only [calculate_segments, if_neg h1]
      set b : ℚ := if K = 2 then (6 : ℚ) else 4 with hbdef
      have hb : (0 : ℚ) < b := by rw [hbdef]; split <;> norm_num
      set full : ℤ := pytrunc (D / b) with hfdef
      have hfull0 : 0 ≤ full := by
        rw [hfdef, pytrunc_eq_floor _ (div_nonneg hD.le hb.le)]
        exact Int.floor_nonneg.mpr (div_nonneg hD.le hb.le)
      by_cases hf : full = 0
      · simp [hf]
      · have hcast : ((full.toNat : ℕ) : ℚ) = (full : ℚ) := by
          exact_mod_cast congrArg (fun z : ℤ => (z : ℚ)) (Int.toNat_of_nonneg hfull0)
        have hne : (full : ℚ) ≠ 0 := Int.cast_ne_zero.mpr hf
        by_cases hr : D - (full : ℚ) * b ≤ 1
        · simp only [if_neg hf, if_pos hr, List.sum_replicate, nsmul_eq_mul, hcast]
          field_simp
        · simp only [if_neg hf, if_neg hr, List.sum_append, List.sum_replicate,
            nsmul_eq_mul, List.sum_cons, List.sum_nil, hcast]
          ring

/-- Witness for calculate_segments_spec at D = 10, K = 1. -/
theorem calculate_segments_spec_witness :
    calculate_segments 10 1 = [10] ∧ (calculate_segments 10 1).sum = 10 :=
  ⟨(calculate_segments_spec 10 1 (by norm_num)).1 rfl,
   (calculate_segments_spec 10 1 (by norm_num)).2.2.2.2⟩

/-- C2 counterexample: for a 25-second clip with 2 speakers the code
assigns segment speakers [0, 1, 1, 0], not the alternating [0, 1, 0, 1]
stated in the claim (indices 1 and 2 both fall between anchors and both
map to speaker 1, and index 3 satisfies i % 3 == 0 so it returns to the
primary speaker). -/
theorem segment_speaker_ids_25_2_claim_false :
    segment_speaker_ids 25 2 ≠ [0, 1, 0, 1] ∧
    segment_speaker_ids 25 2 = [0, 1, 1, 0] := by
  constructor
  · intro hcontra
    have : segment_speaker_ids 25 2 = [0, 1, 1, 0] := by
      norm_num [segment_speaker_ids, calculate_segments, pytrunc]
      rfl
    rw [this] at hcontra
    simp at hcontra
  · norm_num [segment_speaker_ids, calculate_segments, pytrunc]
    rfl

/-- C2 amended: a 25-second clip with exactly 2 detected speakers is cut
into 4 segments of 6.25 s whose speaker assignment under the
i % 3 == 0 anchor rule is [0, 1, 1, 0] (anchor segments 0 and 3 go to the
primary speaker, the two segments in between go to speaker 1), and the
resulting clip data has dynamic_cropping == True. -/
theorem segment_speaker_ids_25_2_amended :
    (calculate_segments 25 2).length = 4 ∧
    calculate_segments 25 2 = [25 / 4, 25 / 4, 25 / 4, 25 / 4] ∧
    segment_speaker_ids 25 2 = [0, 1, 1, 0] ∧
    dynamic_cropping 2 = true := by
  refine ⟨?_, ?_, ?_, rfl⟩
  · norm_num [calculate_segments, pytrunc]
    rfl
  · norm_num [calculate_segments, pytrunc]
    rfl
  · norm_num [segment_speaker_ids, calculate_segments, pytrunc]
    rfl

/-- C3: calculate_crop_zone always returns a 1080 × 1920 rectangle with
crop_y = 0; its crop_x is 0 in the degenerate case where the scaled
source width is at most the 1080 target, and otherwise lies within
[0, scaled_width - 1080], for every face position, source frame size
with positive height, and position class. -/
theorem calculate_crop_zone_spec (fx fy w h : ℤ) (pos : String) (hh : 0 < h) :
    (calculate_crop_zone fx fy w h pos).2.1 = 0 ∧
    (calculate_crop_zone fx fy w h pos).2.2.1 = 1080 ∧
    (calculate_crop_zone fx fy w h pos).2.2.2 = 1920 ∧
    (pytrunc ((w : ℚ) * ((1920 : ℚ) / (h : ℚ))) ≤ 1080 →
      (calculate_crop_zone fx fy w h pos).1 = 0) ∧
    (1080 < pytrunc ((w : ℚ) * ((1920 : ℚ) / (h : ℚ))) →
      0 ≤ (calculate_crop_zone fx fy w h pos).1 ∧
      (calculate_crop_zone fx fy w h pos).1 ≤
        pytrunc ((w : ℚ) * ((1920 : ℚ) / (h : ℚ))) - 1080) := by
  simp only [calculate_crop_zone]
  set sw : ℤ := pytrunc ((w : ℚ) * ((1920 : ℚ) / (h : ℚ))) with hsw
  refine ⟨trivial, trivial, trivial, ?_, ?_⟩
  · intro hle
    simp [if_pos hle]
  · intro hgt
    rw [if_neg (by omega : ¬ sw ≤ 1080)]
    have hM : (0 : ℤ) ≤ sw - 1080 := by omega
    split_ifs <;>
      first
        | exact ⟨le_max_left _ _, max_le hM (min_le_right _ _)⟩
        | (constructor
           · rw [pydiv, Int.fdiv_eq_ediv _ (by norm_num : (0 : ℤ) ≤ 2)]
             omega
           · rw [pydiv, Int.fdiv_eq_ediv _ (by norm_num : (0 : ℤ) ≤ 2)]
             omega)

/-- Witness for calculate_crop_zone_spec at a concrete 1920 × 1080 frame. -/
theorem calculate_crop_zone_spec_witness :
    (0 : ℤ) < 1080 ∧
    (calculate_crop_zone 500 100 1920 1080 "center").2.1 = 0 ∧
    (calculate_crop_zone 500 100 1920 1080 "center").2.2.1 = 1080 ∧
    (calculate_crop_zone 500 100 1920 1080 "center").2.2.2 = 1920 :=
  ⟨by norm_num,
   (calculate_crop_zone_spec 500 100 1920 1080 "center" (by norm_num)).1,
   (calculate_crop_zone_spec 500 100 1920 1080 "center" (by norm_num)).2.1,
   (calculate_crop_zone_spec 500 100 1920 1080 "center" (by norm_num)).2.2.1⟩

/-- C5: two detections handed to the Speaker Clusterer merge into a
single cluster when their normalized centres differ by less than 0.15 in
both axes and their size ratio min/max exceeds 0.4, and when their
normalized centres differ by more than 0.15 in either axis they never end
up in the same cluster. -/
theorem face_pair_clustering (f g : Face) (width height : ℤ) :
    ((|normalized_x width f - normalized_x width g| < 15 / 100 ∧
      |normalized_y height f - normalized_y height g| < 15 / 100 ∧
      (2 : ℚ) / 5 <
        ((min (face_size f) (face_size g) : ℤ) : ℚ) /
          ((max (face_size f) (face_size g) : ℤ) : ℚ)) →
      ∃ c, improved_face_clustering [f, g] width height = [c] ∧ f ∈ c ∧ g ∈ c) ∧
    ((15 / 100 < |normalized_x width f - normalized_x width g| ∨
      15 / 100 < |normalized_y height f - normalized_y height g|) →
      ∀ c ∈ improved_face_clustering [f, g] width height, ¬ (f ∈ c ∧ g ∈ c)) := by
  constructor
  · intro hyp
    have hfg : merge_condition width height f g = true :=
      (merge_condition_eq_true width height f g).mpr hyp
    have hgf : merge_condition width height g f = true :=
      (merge_condition_symm width height f g) ▸ hfg
    simp only [improved_face_clustering, sort_by_size_desc, sorted_insert,
      List.length_cons, List.length_nil]
    by_cases hs : face_size f < face_size g
    · rw [if_pos hs]
      exact ⟨[g, f], by simp [cluster_scan, List.filter_cons, List.filter_nil, hgf],
        by simp, by simp⟩
    · rw [if_neg hs]
      exact ⟨[f, g], by simp [cluster_scan, List.filter_cons, List.filter_nil, hfg],
        by simp, by simp⟩
  · intro hyp c hc hmem
    have hne : f ≠ g := by
      rintro rfl
      rcases hyp with h | h <;>
        (rw [sub_self, abs_zero] at h; exact absurd h (by norm_num))
    have hprop : ¬ (|normalized_x width f - normalized_x width g| < 15 / 100 ∧
        |normalized_y height f - normalized_y height g| < 15 / 100 ∧
        (2 : ℚ) / 5 <
          ((min (face_size f) (face_size g) : ℤ) : ℚ) /
            ((max (face_size f) (face_size g) : ℤ) : ℚ)) := by
      rintro ⟨h1, h2, -⟩
      rcases hyp with h | h
      · exact absurd h1 (not_lt.mpr h.le)
      · exact absurd h2 (not_lt.mpr h.le)
    have hfg : merge_condition width height f g = false := by
      rw [Bool.eq_false_iff, Ne, merge_condition_eq_true]
      exact hprop
    have hgf : merge_condition width height g f = false :=
      (merge_condition_symm width height f g) ▸ hfg
    simp only [improved_face_clustering, sort_by_size_desc, sorted_insert,
      List.length_cons, List.length_nil] at hc
    by_cases hs : face_size f < face_size g
    · rw [if_pos hs] at hc
      simp [cluster_scan, List.filter_cons, List.filter_nil, hgf] at hc
      rcases hc with rfl | rfl
      · rcases hmem with ⟨hf, -⟩
        simp at hf
        exact hne hf
      · rcases hmem with ⟨-, hg⟩
        simp at hg
        exact hne hg.symm
    · rw [if_neg hs] at hc
      simp [cluster_scan, List.filter_cons, List.filter_nil, hfg] at hc
      rcases hc with rfl | rfl
      · rcases hmem with ⟨-, hg⟩
        simp at hg
        exact hne hg.symm
      · rcases hmem with ⟨hf, -⟩
        simp at hf
        exact hne hf

/-- Witness for face_pair_clustering: two close same-size detections in a
1000 x 1000 frame form one cluster. -/
theorem face_pair_clustering_witness :
    ∃ c, improved_face_clustering
        [⟨650, 650, 70, 70, 685, 685, 1 / 5⟩, ⟨655, 655, 69, 69, 689, 689, 1 / 5⟩]
        1000 1000 = [c] ∧
      (⟨650, 650, 70, 70, 685, 685, 1 / 5⟩ : Face) ∈ c ∧
      (⟨655, 655, 69, 69, 689, 689, 1 / 5⟩ : Face) ∈ c :=
  (face_pair_clustering ⟨650, 650, 70, 70, 685, 685, 1 / 5⟩
      ⟨655, 655, 69, 69, 689, 689, 1 / 5⟩ 1000 1000).1
    (by norm_num [normalized_x, normalized_y, face_size, abs_lt])

/-- C6 counterexample: on demo_faces the clusterer produces four valid
clusters; the code keeps the first three in clustering order, dropping
the fourth cluster even though its total weight (9661) exceeds the
selected third cluster's weight (6400) — so the speakers are not the 3
largest-by-total-weight valid clusters. -/
theorem selected_clusters_claim_false :
    valid_clusters (improved_face_clustering demo_faces 1000 1000) =
      [[⟨100, 100, 100, 100, 150, 150, 1 / 5⟩],
       [⟨300, 300, 90, 90, 350, 350, 1 / 5⟩],
       [⟨500, 500, 80, 80, 550, 550, 1 / 5⟩],
       [⟨700, 700, 70, 70, 750, 750, 1 / 5⟩, ⟨705, 705, 69, 69, 755, 755, 1 / 5⟩]] ∧
    selected_clusters (improved_face_clustering demo_faces 1000 1000) =
      [[⟨100, 100, 100, 100, 150, 150, 1 / 5⟩],
       [⟨300, 300, 90, 90, 350, 350, 1 / 5⟩],
       [⟨500, 500, 80, 80, 550, 550, 1 / 5⟩]] ∧
    cluster_weight [⟨500, 500, 80, 80, 550, 550, 1 / 5⟩] <
      cluster_weight
        [⟨700, 700, 70, 70, 750, 750, 1 / 5⟩, ⟨705, 705, 69, 69, 755, 755, 1 / 5⟩] ∧
    [⟨700, 700, 70, 70, 750, 750, 1 / 5⟩, ⟨705, 705, 69, 69, 755, 755, 1 / 5⟩] ∉
      selected_clusters (improved_face_clustering demo_faces 1000 1000) := by
  have hcl : improved_face_clustering demo_faces 1000 1000 =
      [[⟨100, 100, 100, 100, 150, 150, 1 / 5⟩],
       [⟨300, 300, 90, 90, 350, 350, 1 / 5⟩],
       [⟨500, 500, 80, 80, 550, 550, 1 / 5⟩],
       [⟨700, 700, 70, 70, 750, 750, 1 / 5⟩, ⟨705, 705, 69, 69, 755, 755, 1 / 5⟩]] := by
    norm_num [demo_faces, improved_face_clustering, sort_by_size_desc, sorted_insert,
      face_size, cluster_scan, List.filter_cons, List.filter_nil, merge_condition,
      Bool.and_eq_true, decide_eq_true_eq, normalized_x, normalized_y, abs_lt]
  have hval : valid_clusters (improved_face_clustering demo_faces 1000 1000) =
      [[⟨100, 100, 100, 100, 150, 150, 1 / 5⟩],
       [⟨300, 300, 90, 90, 350, 350, 1 / 5⟩],
       [⟨500, 500, 80, 80, 550, 550, 1 / 5⟩],
       [⟨700, 700, 70, 70, 750, 750, 1 / 5⟩, ⟨705, 705, 69, 69, 755, 755, 1 / 5⟩]] := by
    rw [hcl]
    norm_num [valid_clusters, valid_cluster, List.filter_cons, List.filter_nil,
      decide_eq_true_eq]
  have hsel : selected_clusters (improved_face_clustering demo_faces 1000 1000) =
      [[⟨100, 100, 100, 100, 150, 150, 1 / 5⟩],
       [⟨300, 300, 90, 90, 350, 350, 1 / 5⟩],
       [⟨500, 500, 80, 80, 550, 550, 1 / 5⟩]] := by
    rw [selected_clusters, hval]
    rfl
  refine ⟨hval, hsel, by norm_num [cluster_weight, face_size], ?_⟩
  rw [hsel]
  intro hmem
  simp only [List.mem_cons, List.not_mem_nil, or_false, List.cons.injEq,
    Face.mk.injEq] at hmem
  norm_num at hmem

/-- C6 amended: a cluster is valid exactly when it has at least 2
detections or is a single detection with face_area_ratio above 0.10;
when no cluster qualifies all clusters are accepted as-is; and the
speakers created come from at most the FIRST 3 valid clusters in
clustering order (a prefix of the valid-cluster list, whose seeds are
the largest faces), not necessarily the 3 largest by total weight. -/
theorem cluster_validity_spec (clusters : List (List Face)) :
    (∀ c : List Face, valid_cluster c = true ↔
      2 ≤ c.length ∨ ∃ f, c = [f] ∧ (1 : ℚ) / 10 < f.face_area_ratio) ∧
    (clusters.filter valid_cluster = [] → valid_clusters clusters = clusters) ∧
    selected_clusters clusters <+: valid_clusters clusters ∧
    (selected_clusters clusters).length ≤ 3 := by
  refine ⟨?_, ?_, List.take_prefix 3 _, ?_⟩
  · intro c
    match c with
    | [] => simp [valid_cluster]
    | [f] => simp [valid_cluster, decide_eq_true_eq]
    | f :: g :: rest => simp [valid_cluster]
  · intro h
    simp [valid_clusters, h]
  · simp only [selected_clusters, List.length_take]
    omega

/-- Witness for cluster_validity_spec: a single low-ratio singleton
cluster is not valid, and the lenient fallback keeps it anyway. -/
theorem cluster_validity_spec_witness :
    [[(⟨0, 0, 10, 10, 5, 5, 1 / 20⟩ : Face)]].filter valid_cluster = [] ∧
    valid_clusters [[(⟨0, 0, 10, 10, 5, 5, 1 / 20⟩ : Face)]] =
      [[(⟨0, 0, 10, 10, 5, 5, 1 / 20⟩ : Face)]] := by
  have h : [[(⟨0, 0, 10, 10, 5, 5, 1 / 20⟩ : Face)]].filter valid_cluster = [] := by
    norm_num [List.filter_cons, List.filter_nil, valid_cluster, decide_eq_true_eq]
  exact ⟨h, (cluster_validity_spec [[(⟨0, 0, 10, 10, 5, 5, 1 / 20⟩ : Face)]]).2.1 h⟩

/-- C7 counterexample: eleven one-second segments satisfy "at least 10
segments averaging under 3 seconds", yet the estimator returns 2, not 3:
the earlier branch (average below 5 s and more than 3 segments) fires
first, so the 3-speaker branch is unreachable. -/
theorem estimate_speakers_claim_false :
    10 ≤ (List.replicate 11 (⟨0, 1⟩ : Seg)).length ∧
    avg_segment_length (List.replicate 11 (⟨0, 1⟩ : Seg)) < 3 ∧
    estimate_speakers_from_segments (List.replicate 11 (⟨0, 1⟩ : Seg)) ≠ 3 ∧
    estimate_speakers_from_segments (List.replicate 11 (⟨0, 1⟩ : Seg)) = 2 := by
  have havg : avg_segment_length (List.replicate 11 (⟨0, 1⟩ : Seg)) = 1 := by
    norm_num [avg_segment_length, segment_lengths, List.map_replicate,
      List.sum_replicate]
  have h2 : estimate_speakers_from_segments (List.replicate 11 (⟨0, 1⟩ : Seg)) = 2 := by
    rw [estimate_speakers_from_segments,
      if_neg (by simp : ¬ List.replicate 11 (⟨0, 1⟩ : Seg) = []),
      if_pos (by rw [havg]; norm_num)]
  exact ⟨by norm_num, by rw [havg]; norm_num, by rw [h2]; norm_num, h2⟩

/-- C7 amended: the estimator returns 1 on an empty list, 2 when the
segments average under 5 seconds and there are more than 3 of them, and
1 otherwise; it never returns 3, since the condition of the 3-speaker
branch (more than 10 segments averaging under 3 s) implies the condition
of the 2-speaker branch checked before it. -/
theorem estimate_speakers_spec (segments : List Seg) :
    (segments = [] → estimate_speakers_from_segments segments = 1) ∧
    (avg_segment_length segments < 5 ∧ 3 < segments.length →
      estimate_speakers_from_segments segments = 2) ∧
    (¬ (avg_segment_length segments < 5 ∧ 3 < segments.length) →
      estimate_speakers_from_segments segments = 1) ∧
    estimate_speakers_from_segments segments ≠ 3 := by
  refine ⟨?_, ?_, ?_, ?_⟩
  · intro h
    simp [estimate_speakers_from_segments, h]
  · intro h
    have hne : segments ≠ [] := by
      intro he
      rw [he] at h
      simp at h
    rw [estimate_speakers_from_segments, if_neg hne, if_pos h]
  · intro h
    by_cases hne : segments = []
    · simp [estimate_speakers_from_segments, hne]
    · rw [estimate_speakers_from_segments, if_neg hne, if_neg h, if_neg]
      rintro ⟨hlen, havg⟩
      exact h ⟨by linarith, by omega⟩
  · by_cases hne : segments = []
    · simp [estimate_speakers_from_segments, hne]
    · rw [estimate_speakers_from_segments, if_neg hne]
      by_cases h2 : avg_segment_length segments < 5 ∧ 3 < segments.length
      · rw [if_pos h2]
        norm_num
      · rw [if_neg h2, if_neg]
        · norm_num
        · rintro ⟨hlen, havg⟩
          exact h2 ⟨by linarith, by omega⟩

/-- Witness for estimate_speakers_spec: the empty list gives 1 and four
one-second segments give 2. -/
theorem estimate_speakers_spec_witness :
    estimate_speakers_from_segments [] = 1 ∧
    estimate_speakers_from_segments (List.replicate 4 (⟨0, 1⟩ : Seg)) = 2 :=
  ⟨(estimate_speakers_spec []).1 rfl,
   (estimate_speakers_spec (List.replicate 4 (⟨0, 1⟩ : Seg))).2.1
     (by constructor
         · norm_num [avg_segment_length, segment_lengths, List.map_replicate,
             List.sum_replicate]
         · norm_num)⟩

/-- In the pass loop, the accumulator grows by whole pass results until
the estimated speaker count is reached; the result always is the
accumulator followed by the concatenation of some prefix of the passes. -/
theorem accumulate_passes_take (est : ℕ) (acc : List Face)
    (ps : List (List Face)) :
    ∃ n, n ≤ ps.length ∧
      accumulate_passes est acc ps = acc ++ ((ps.take n).flatten) := by
  induction ps generalizing acc with
  | nil => exact ⟨0, by simp [accumulate_passes]⟩
  | cons p ps ih =>
      by_cases h : est ≤ acc.length
      · exact ⟨0, by simp [accumulate_passes, h]⟩
      · obtain ⟨n, hn, heq⟩ := ih (acc ++ p)
        refine ⟨n + 1, by simpa using Nat.succ_le_succ hn, ?_⟩
        rw [accumulate_passes, if_neg h, heq]
        simp [List.take_succ_cons]

/-- If every proper prefix of the pass results contains fewer faces than
the estimated speaker count, the loop consumes every pass. -/
theorem accumulate_passes_all (est : ℕ) (acc : List Face)
    (ps : List (List Face))
    (h : ∀ k, k < ps.length → acc.length + ((ps.take k).flatten).length < est) :
    accumulate_passes est acc ps = acc ++ ps.flatten := by
  induction ps generalizing acc with
  | nil => simp [accumulate_passes]
  | cons p ps ih =>
      have h0 : acc.length < est := by simpa using h 0 (by simp)
      rw [accumulate_passes, if_neg (by omega), ih (acc ++ p)]
      · simp
      · intro k hk
        have hk1 := h (k + 1) (by simpa using Nat.succ_lt_succ hk)
        simp only [List.take_succ_cons, List.flatten_cons, List.length_append] at hk1 ⊢
        omega

/-- C8 counterexample: in multi-speaker mode (estimated_speakers = 2 >
1), a first frontal pass that already finds 2 faces makes the loop break
before the remaining passes (including the profile pass), so their
results are not accumulated, contradicting "always runs both passes and
never stops early". -/
theorem run_detection_passes_claim_false :
    (1 : ℕ) < 2 ∧
    run_detection_passes 2 [[dummy_face, dummy_face], [dummy_face], [], []] =
      [dummy_face, dummy_face] ∧
    run_detection_passes 2 [[dummy_face, dummy_face], [dummy_face], [], []] ≠
      ([[dummy_face, dummy_face], [dummy_face], [], []] : List (List Face)).flatten := by
  refine ⟨by norm_num, ?_, ?_⟩
  · simp [run_detection_passes, accumulate_passes]
  · simp [run_detection_passes, accumulate_passes]

/-- C8 amended: the per-frame pass loop accumulates pass results in
order but stops before a pass as soon as at least estimated_speakers
faces have been accumulated; its output is always the concatenation of a
prefix of the pass results, and it accumulates the results of every pass
(frontal and profile alike) exactly in the runs where every proper
prefix of the pass results yields fewer than estimated_speakers faces. -/
theorem run_detection_passes_spec (est : ℕ) (passes : List (List Face)) :
    (∃ n, n ≤ passes.length ∧
      run_detection_passes est passes = ((passes.take n).flatten)) ∧
    ((∀ k, k < passes.length → ((passes.take k).flatten).length < est) →
      run_detection_passes est passes = passes.flatten) := by
  constructor
  · obtain ⟨n, hn, h⟩ := accumulate_passes_take est [] passes
    exact ⟨n, hn, by simpa using h⟩
  · intro h
    have := accumulate_passes_all est [] passes (by simpa using h)
    simpa using this

/-- Filtering out a path leaves lookups at other paths unchanged. -/
theorem fs_lookup_filter_ne (fs : Fs) (p q : String) (h : q ≠ p) :
    fs_lookup (fs.filter fun e => !(e.1 == p)) q = fs_lookup fs q := by
  induction fs with
  | nil => rfl
  | cons e rest ih =>
      by_cases hep : e.1 = p
      · have h1 : (e.1 == p) = true := beq_iff_eq.mpr hep
        have h2 : (e.1 == q) = false := by
          rw [beq_eq_false_iff_ne, hep]
          exact fun hpq => h hpq.symm
        simp only [fs_lookup, List.filter_cons, h1, Bool.not_true, Bool.false_eq_true,
          if_false, List.find?, h2, cond_false]
        exact ih
      · have h1 : (e.1 == p) = false := beq_eq_false_iff_ne.mpr hep
        by_cases heq : e.1 = q
        · have h2 : (e.1 == q) = true := beq_iff_eq.mpr heq
          simp only [fs_lookup, List.filter_cons, h1, Bool.not_false, if_true,
            List.find?, h2, cond_true]
        · have h2 : (e.1 == q) = false := beq_eq_false_iff_ne.mpr heq
          simp only [fs_lookup, List.filter_cons, h1, Bool.not_false, if_true,
            List.find?, h2, cond_false]
          exact ih

/-- Lookup at a freshly written path returns the written content. -/
theorem fs_lookup_set_eq (fs : Fs) (p : String) (c : ℕ) :
    fs_lookup (fs_set fs p c) p = some c := by
  simp [fs_lookup, fs_set, List.find?]

/-- Writing one path leaves lookups at other paths unchanged. -/
theorem fs_lookup_set_ne (fs : Fs) (p q : String) (c : ℕ) (h : q ≠ p) :
    fs_lookup (fs_set fs p c) q = fs_lookup fs q := by
  have h2 : (p == q) = false := by
    rw [beq_eq_false_iff_ne]
    exact fun hpq => h hpq.symm
  simp only [fs_lookup, fs_set, List.find?, h2, cond_false]
  exact fs_lookup_filter_ne fs p q h

/-- C4 counterexample: on the success path the code deletes the original
rendered file and only then renames the temp render into its place — the
trace below passes through a state holding only the temp file, in which
no file at all exists at the original path.  An atomic
rename-over-the-original replacement would keep either the old or the
new content at the original path in every intermediate state, so the
replacement is not atomic as claimed. -/
theorem caption_reburn_not_atomic :
    regenerate_video_background_ass [("clip.mp4", 1)] "clip.mp4" "clip_ASS_temp.mp4"
        (some 2) none =
      [[("clip.mp4", 1)],
       [("clip_ASS_temp.mp4", 2), ("clip.mp4", 1)],
       [("clip_ASS_temp.mp4", 2)],
       [("clip.mp4", 2)]] ∧
    [("clip_ASS_temp.mp4", 2)] ∈
      regenerate_video_background_ass [("clip.mp4", 1)] "clip.mp4" "clip_ASS_temp.mp4"
        (some 2) none ∧
    fs_lookup [("clip_ASS_temp.mp4", 2)] "clip.mp4" = none := by
  have h : regenerate_video_background_ass [("clip.mp4", 1)] "clip.mp4"
      "clip_ASS_temp.mp4" (some 2) none =
      [[("clip.mp4", 1)],
       [("clip_ASS_temp.mp4", 2), ("clip.mp4", 1)],
       [("clip_ASS_temp.mp4", 2)],
       [("clip.mp4", 2)]] := rfl
  refine ⟨h, ?_, rfl⟩
  rw [h]
  simp

/-- C4 amended: caption re-burn renders to the temp path first; on a
failed burn the code raises before touching the original, so every state
of the failure trace keeps the old artifact at the original path intact;
on a successful burn the original still holds the old artifact until the
delete step, and the final state holds the newly rendered content at the
original path. -/
theorem caption_reburn_spec (fs : Fs) (orig temp : String)
    (burn fail_out : Option ℕ) (oldC : ℕ)
    (hne : orig ≠ temp) (hold : fs_lookup fs orig = some oldC) :
    (burn = none →
      ∀ st ∈ regenerate_video_background_ass fs orig temp burn fail_out,
        fs_lookup st orig = some oldC) ∧
    (∀ c, burn = some c →
      ∀ st ∈ (regenerate_video_background_ass fs orig temp burn fail_out).take 2,
        fs_lookup st orig = some oldC) ∧
    (∀ c, burn = some c →
      ∀ st, (regenerate_video_background_ass fs orig temp burn fail_out).getLast? =
          some st →
        fs_lookup st orig = some c) := by
  refine ⟨?_, ?_, ?_⟩
  · rintro rfl st hst
    simp only [regenerate_video_background_ass] at hst
    rcases fail_out with - | c
    · simp only [List.mem_cons, List.not_mem_nil, or_false] at hst
      rcases hst with rfl | rfl <;> exact hold
    · simp only [List.mem_cons, List.not_mem_nil, or_false] at hst
      rcases hst with rfl | rfl
      · exact hold
      · rw [fs_lookup_set_ne _ _ _ _ hne]
        exact hold
  · rintro c rfl st hst
    simp only [regenerate_video_background_ass] at hst
    simp only [List.take, List.mem_cons, List.not_mem_nil, or_false] at hst
    rcases hst with rfl | rfl
    · exact hold
    · rw [fs_lookup_set_ne _ _ _ _ hne]
      exact hold
  · rintro c rfl st hst
    simp only [regenerate_video_background_ass] at hst
    simp only [List.getLast?, Option.some.injEq] at hst
    subst hst
    have htemp : fs_lookup (fs_remove (fs_set fs temp c) orig) temp = some c := by
      rw [fs_remove, fs_lookup_filter_ne _ _ _ (fun h => hne h.symm)]
      exact fs_lookup_set_eq fs temp c
    rw [fs_rename, htemp]
    exact fs_lookup_set_eq _ orig c

/-- Witness for caption_reburn_spec: a failed burn with an incomplete temp
file leaves the original file's content unchanged in the final state. -/
theorem caption_reburn_spec_witness :
    fs_lookup (fs_set [("a.mp4", 5)] "t.mp4" 9) "a.mp4" = some 5 :=
  (caption_reburn_spec [("a.mp4", 5)] "a.mp4" "t.mp4" none (some 9) 5
      (by simp) rfl).1 rfl
    (fs_set [("a.mp4", 5)] "t.mp4" 9)
    (by simp [regenerate_video_background_ass])

/-- C9 amended: every format_timestamp output is a well-behaved
timestamp string, and any cue list whose texts are stripped, nonempty,
newline- and backslash-free and carry no bracketed speaker prefix, and
whose timestamp strings are likewise well behaved, survives the SRT
write/parse round trip with the same (text, start, end) triples in the
same order. -/
theorem srt_round_trip :
    (∀ q : ℚ, good_ts (format_timestamp q)) ∧
    ∀ cues : List (PyStr × PyStr × PyStr),
      (∀ x ∈ cues, good_text x.1 ∧ good_ts x.2.1 ∧ good_ts x.2.2) →
      (extract_captions_from_srt_fixed (write_srt cues)).map
        (fun c => (c.text, c.start_time, c.end_time)) = cues :=
  ⟨good_ts_format_timestamp, extract_write_srt⟩

/-- Witness for srt_round_trip: one transcriber-shaped cue with
formatted timestamps round-trips. -/
theorem srt_round_trip_witness :
    (extract_captions_from_srt_fixed (write_srt
        [(String.toList "hi", format_timestamp 0, format_timestamp (3 / 2))])).map
      (fun c => (c.text, c.start_time, c.end_time)) =
      [(String.toList "hi", format_timestamp 0, format_timestamp (3 / 2))] :=
  srt_round_trip.2 _ (by
    intro x hx
    simp only [List.mem_singleton] at hx
    subst hx
    exact ⟨⟨by decide, by decide, by decide, by decide, by decide⟩,
      srt_round_trip.1 0, srt_round_trip.1 (3 / 2)⟩)

/-- C9 counterexample: a cue whose transcribed text begins with a
bracketed tag does not round-trip as the claim states: the parser
strips the tag into the speaker field, so the text comes back as "hi"
instead of "[A] hi". -/
theorem srt_round_trip_claim_false :
    (extract_captions_from_srt_fixed (write_srt
        [(String.toList "[A] hi", ['0'], ['1'])])).map
      (fun c => (c.text, c.start_time, c.end_time)) =
      [(String.toList "hi", ['0'], ['1'])] ∧
    [((String.toList "hi" : PyStr), (['0'] : PyStr), (['1'] : PyStr))] ≠
      [(String.toList "[A] hi", ['0'], ['1'])] := by
  constructor
  · simp +decide [extract_captions_from_srt_fixed, write_srt, write_srt_blocks,
      srt_block, nat_digits, nat_digits_aux, digit_char, arrow_sep, pyreplace,
      pysplit, pystrip, pylstrip, pyrstrip, pyisspace, parse_block, pyint, pynat,
      py_digits_run, speaker_split, pyfind, List.intercalate, String.toList]
  · decide

/-- C10: every cue returned by the block parser carries speaker
'Speaker 1' unless the block's text begins with '[' and contains '] ',
in which case the bracketed prefix is removed from the text and used as
the speaker; and blocks with fewer than 3 lines, a non-integer first
line, or a timing line without the ' --> ' separator are silently
skipped (parse to None). -/
theorem parse_block_spec (block : PyStr) :
    ((pysplit ['\n'] (pystrip block)).length < 3 → parse_block block = none) ∧
    (∀ l0 l1 l2 rest, pysplit ['\n'] (pystrip block) = l0 :: l1 :: l2 :: rest →
      (pyint l0 = none → parse_block block = none) ∧
      (pyfind arrow_sep l1 = none → parse_block block = none)) ∧
    (∀ cap, parse_block block = some cap →
      ∀ l0 l1 l2 rest, pysplit ['\n'] (pystrip block) = l0 :: l1 :: l2 :: rest →
        (¬ (List.isPrefixOf ['['] (List.intercalate ['\n'] (l2 :: rest)) = true ∧
            (pyfind (']' :: [' ']) (List.intercalate ['\n'] (l2 :: rest))).isSome =
              true) →
          cap.speaker = String.toList "Speaker 1" ∧
          cap.text = pystrip (List.intercalate ['\n'] (l2 :: rest))) ∧
        (∀ k, List.isPrefixOf ['['] (List.intercalate ['\n'] (l2 :: rest)) = true →
          pyfind (']' :: [' ']) (List.intercalate ['\n'] (l2 :: rest)) = some k →
          cap.speaker = ((List.intercalate ['\n'] (l2 :: rest)).take k).drop 1 ∧
          cap.text =
            pystrip ((List.intercalate ['\n'] (l2 :: rest)).drop (k + 2)))) := by
  refine ⟨?_, ?_, ?_⟩
  · intro hlen
    rw [parse_block]
    cases h0 : pysplit ['\n'] (pystrip block) with
    | nil => rfl
    | cons l0 t0 =>
        cases t0 with
        | nil => rfl
        | cons l1 t1 =>
            cases t1 with
            | nil => rfl
            | cons l2 rest =>
                rw [h0] at hlen
                simp only [List.length_cons] at hlen
                omega
  · intro l0 l1 l2 rest hls
    constructor
    · intro hint
      rw [parse_block, hls]
      dsimp only
      rw [hint]
    · intro hfind
      rw [parse_block, hls]
      dsimp only
      cases hpi : pyint l0 with
      | none => rfl
      | some idx =>
          dsimp only
          rw [pysplit_eq_single arrow_sep l1 (by decide)
            (sep_free_of_pyfind_none arrow_sep l1 hfind)]
  · intro cap hcap l0 l1 l2 rest hls
    rw [parse_block, hls] at hcap
    dsimp only at hcap
    cases hpi : pyint l0 with
    | none =>
        rw [hpi] at hcap
        simp at hcap
    | some idx =>
        rw [hpi] at hcap
        dsimp only at hcap
        cases hsp : pysplit arrow_sep l1 with
        | nil =>
            rw [hsp] at hcap
            simp at hcap
        | cons p1 ps =>
            cases ps with
            | nil =>
                rw [hsp] at hcap
                simp at hcap
            | cons p2 ps2 =>
                cases ps2 with
                | cons p3 ps3 =>
                    rw [hsp] at hcap
                    simp at hcap
                | nil =>
                    rw [hsp] at hcap
                    dsimp only at hcap
                    injection hcap with hcap
                    subst hcap
                    constructor
                    · intro hno
                      rw [speaker_split_good _ hno]
                      exact ⟨rfl, rfl⟩
                    · intro k hpre hfind
                      rw [speaker_split, if_pos hpre, hfind]
                      exact ⟨rfl, rfl⟩

/-- Witness for parse_block_spec: a one-line block is silently
skipped. -/
theorem parse_block_spec_witness : parse_block (String.toList "1") = none :=
  (parse_block_spec (String.toList "1")).1 (by
    simp +decide [pysplit, pystrip, pylstrip, pyrstrip, pyisspace, String.toList])

/-- Witness for run_detection_passes_spec: with 2 estimated speakers and
pass results [[f], [], [], []] every proper prefix stays below 2 faces,
and all passes are accumulated. -/
theorem run_detection_passes_spec_witness :
    run_detection_passes 2 [[dummy_face], [], [], []] =
      ([[dummy_face], [], [], []] : List (List Face)).flatten :=
  (run_detection_passes_spec 2 [[dummy_face], [], [], []]).2 (by
    intro k hk
    simp only [List.length_cons, List.length_nil] at hk
    interval_cases k <;> simp)

end Clipper
